import Mathlib

/-!
Shallow embedding of the generic tensor "peek" instruction
(src/eval/src/vespa/eval/instruction/generic_peek.cpp).

Dimensions are either indexed (dense, with a static size) or mapped
(sparse, string-addressed).  A peek specification pins dimensions either
to literal labels or to runtime child values.  The code splits the
dimensions into a dense plan (offset/stride arithmetic) and a sparse
plan (string-key lookup), then copies the surviving cells.

C++ `size_t` values are modelled as `Nat`; the one place where the code
relies on unsigned wrap-around, the `int64_t` to `size_t` conversion of
a child value inside `DensePlan::get_offset`, is modelled explicitly as
reduction modulo `2 ^ 64`.  Fatal assertions (`assert` / `abort`) are
modelled by returning `none`.
-/

namespace GenericPeek

/-- Kind of a tensor dimension: indexed (dense) with a static size, or
mapped (sparse). -/
inductive DimKind where
  | indexed (size : Nat)
  | mapped
deriving DecidableEq, Repr

/-- A tensor-type dimension: a name plus its kind
(`ValueType::Dimension`). -/
structure Dimension where
  name : String
  kind : DimKind
deriving DecidableEq, Repr

/-- `ValueType::Dimension::is_indexed`. -/
def Dimension.is_indexed (d : Dimension) : Bool :=
  match d.kind with
  | .indexed _ => true
  | .mapped => false

/-- Size of an indexed dimension (only used on indexed dimensions). -/
def Dimension.size (d : Dimension) : Nat :=
  match d.kind with
  | .indexed n => n
  | .mapped => 0

/-- `TensorSpec::Label`: either a mapped-coordinate name or an indexed
coordinate. -/
inductive TLabel where
  | lname (s : String)
  | lindex (n : Nat)
deriving DecidableEq, Repr

/-- `GenericPeek::MyLabel`: a spec entry pins a dimension either to a
runtime child (by index) or to a literal label. -/
inductive MyLabel where
  | child (idx : Nat)
  | label (l : TLabel)
deriving DecidableEq, Repr

/-- Lexicographic comparison of character lists (the total order on
dimension names; `std::map` iteration and type dimension lists use the
same order, and nothing depends on which total order it is). -/
def strLtAux : List Char → List Char → Bool
  | [], [] => false
  | [], _ :: _ => true
  | _ :: _, [] => false
  | a :: as, b :: bs =>
      if a < b then true
      else if b < a then false
      else strLtAux as bs

/-- The name order used by the merge passes. -/
def strLt (a b : String) : Bool := strLtAux a.data b.data

/-- `GenericPeek::SpecMap`: a `std::map` from dimension name to pin,
modelled as an association list iterated in ascending-name order. -/
abbrev Spec := List (String × MyLabel)

/-- `count_children`: number of spec entries that reference a child. -/
def count_children (spec : Spec) : Nat :=
  spec.countP (fun p => match p.2 with | .child _ => true | _ => false)

/-- `DimSpec`: a dimension name paired with its pin. -/
structure DimSpec where
  name : String
  child_or_label : MyLabel
deriving DecidableEq, Repr

/-- `ExtractedSpecs`: one linear merge pass over the (name-sorted) input
dimensions and the (name-sorted) spec.  Collects dimensions of the
requested kind, pairing those that have a spec entry with that entry.
A spec entry whose name is missing from the input dimensions hits the
`visit_ranges_second` branch, which calls `abort()`; this (and only
this) is modelled by `none`. -/
def extractedSpecs (ind : Bool) :
    List Dimension → Spec → Option (List Dimension × List DimSpec)
  | [], [] => some ([], [])
  | [], _ :: _ => none
  | a :: as, [] =>
      (extractedSpecs ind as []).map
        (fun r => (if a.is_indexed = ind then a :: r.1 else r.1, r.2))
  | a :: as, (n, v) :: ss =>
      if strLt a.name n then
        (extractedSpecs ind as ((n, v) :: ss)).map
          (fun r => (if a.is_indexed = ind then a :: r.1 else r.1, r.2))
      else if strLt n a.name then
        none
      else
        (extractedSpecs ind as ss).map
          (fun r =>
            if a.is_indexed = ind then (a :: r.1, ⟨a.name, v⟩ :: r.2)
            else (r.1, r.2))

/-- Product of a list of sizes. -/
def listProd : List Nat → Nat
  | [] => 1
  | s :: r => s * listProd r

/-- Row-major strides: each position holds the product of all sizes to
its right (rightmost stride is 1). -/
def stridesOf : List Nat → List Nat
  | [] => []
  | _ :: r => listProd r :: stridesOf r

/-- `DenseSizes`: sizes, row-major strides and total dense size of an
ordered list of indexed dimensions. -/
structure DenseSizes where
  size : List Nat
  stride : List Nat
  cur_size : Nat
deriving Repr

/-- `DenseSizes::DenseSizes`: asserts every dimension is indexed, then
computes strides right-to-left with a running product. -/
def denseSizes (dims : List Dimension) : Option DenseSizes :=
  if dims.all (fun d => d.is_indexed) then
    some ⟨dims.map Dimension.size,
          stridesOf (dims.map Dimension.size),
          listProd (dims.map Dimension.size)⟩
  else none

/-- `DensePlan::Child`: a dense dimension pinned by a runtime child
value; the dimension size becomes a runtime bounds limit. -/
structure Child where
  idx : Nat
  stride : Nat
  limit : Nat
deriving DecidableEq, Repr

/-- `DensePlan`. -/
structure DensePlan where
  in_dense_size : Nat
  out_dense_size : Nat
  loop_cnt : List Nat
  in_stride : List Nat
  verbatim_offset : Nat
  children : List Child
deriving Repr

/-- The classification loop of `DensePlan::DensePlan`: walks the
extracted indexed dimensions (with their sizes and strides) against the
extracted specs.  A dimension without a spec entry becomes a free loop;
a child pin is recorded with its stride and limit; a literal label must
be an in-range indexed label (asserted) and contributes to the verbatim
offset.  Returns (loop_cnt, in_stride, out_dense_size, verbatim_offset,
children). -/
def densePlanLoop :
    List Dimension → List Nat → List Nat → List DimSpec →
    Option (List Nat × List Nat × Nat × Nat × List Child)
  | [], _, _, [] => some ([], [], 1, 0, [])
  | [], _, _, _ :: _ => none
  | _ :: _, [], _, _ => none
  | _ :: _, _ :: _, [], _ => none
  | _ :: dims, sz :: szs, st :: sts, [] =>
      (densePlanLoop dims szs sts []).map
        (fun r => (sz :: r.1, st :: r.2.1, r.2.2.1 * sz, r.2.2.2.1, r.2.2.2.2))
  | dim :: dims, sz :: szs, st :: sts, s :: ss =>
      if strLt dim.name s.name then
        (densePlanLoop dims szs sts (s :: ss)).map
          (fun r => (sz :: r.1, st :: r.2.1, r.2.2.1 * sz, r.2.2.2.1, r.2.2.2.2))
      else if dim.name = s.name then
        match s.child_or_label with
        | .child idx =>
            (densePlanLoop dims szs sts ss).map
              (fun r => (r.1, r.2.1, r.2.2.1, r.2.2.2.1, ⟨idx, st, sz⟩ :: r.2.2.2.2))
        | .label (.lindex li) =>
            if li < sz then
              (densePlanLoop dims szs sts ss).map
                (fun r => (r.1, r.2.1, r.2.2.1, li * st + r.2.2.2.1, r.2.2.2.2))
            else none
        | .label (.lname _) => none
      else none

/-- `DensePlan::DensePlan`: extract the indexed dimensions and their
spec slice, compute sizes and strides, and classify. -/
def densePlan (input_type : List Dimension) (spec : Spec) : Option DensePlan :=
  (extractedSpecs true input_type spec).bind fun mine =>
  (denseSizes mine.1).bind fun sizes =>
  (densePlanLoop mine.1 sizes.size sizes.stride mine.2).map fun r =>
    ⟨sizes.cur_size, r.2.2.1, r.1, r.2.1, r.2.2.2.1, r.2.2.2.2⟩

/-- `size_t(-1)`, the "no matching dense offset" sentinel. -/
def npos : Nat := 2 ^ 64 - 1

/-- Conversion of an `int64_t` child value to `size_t`: reduction
modulo `2 ^ 64` (negative values wrap to huge unsigned values). -/
def toSizeT (v : Int) : Nat := (v % (2 ^ 64 : Int)).toNat

/-- The loop of `DensePlan::get_offset`: accumulate child
contributions, bailing out with `npos` as soon as a child value is out
of range. -/
def get_offset_loop (g : Nat → Int) : Nat → List Child → Nat
  | offset, [] => offset
  | offset, c :: cs =>
      let from_child := toSizeT (g c.idx)
      if from_child < c.limit then
        get_offset_loop g (offset + from_child * c.stride) cs
      else npos

/-- `DensePlan::get_offset`. -/
def DensePlan.get_offset (p : DensePlan) (g : Nat → Int) : Nat :=
  get_offset_loop g p.verbatim_offset p.children

/-- Modelled from the spec: `run_nested_loop` (nested_loop.h, not part
of the sources here) generates, from a base offset, one linear index
per combination of free-dimension coordinates, in row-major order
(outer dimension varies slowest), each `offset + Σ i_k * stride_k`. -/
def run_nested_loop : Nat → List Nat → List Nat → List Nat
  | off, [], _ => [off]
  | _, _ :: _, [] => []
  | off, cnt :: cnts, str :: strs =>
      (List.range cnt).flatMap fun i => run_nested_loop (off + i * str) cnts strs

/-- `SparsePlan`: count of surviving (output) mapped dimensions, the
ordered pin specs of the pinned mapped dimensions, and the positions of
the pinned mapped dimensions among the input's mapped dimensions. -/
structure SparsePlan where
  out_mapped_dims : Nat
  lookup_specs : List DimSpec
  view_dims : List Nat
deriving Repr

/-- The classification loop of `SparsePlan::SparsePlan`: walks the
extracted mapped dimensions (tracking the dimension index) against the
extracted specs.  A dimension without a spec entry is counted as a
surviving output mapped dimension; a pinned dimension's index joins the
lookup view.  Returns (out_mapped_dims, view_dims). -/
def sparsePlanLoop : Nat → List Dimension → List DimSpec → Option (Nat × List Nat)
  | _, [], [] => some (0, [])
  | _, [], _ :: _ => none
  | i, _ :: ds, [] =>
      (sparsePlanLoop (i + 1) ds []).map (fun r => (r.1 + 1, r.2))
  | i, d :: ds, s :: ss =>
      if strLt d.name s.name then
        (sparsePlanLoop (i + 1) ds (s :: ss)).map (fun r => (r.1 + 1, r.2))
      else if d.name = s.name then
        (sparsePlanLoop (i + 1) ds ss).map (fun r => (r.1, i :: r.2))
      else none

/-- `SparsePlan::SparsePlan`. -/
def sparsePlan (input_type : List Dimension) (spec : Spec) : Option SparsePlan :=
  (extractedSpecs false input_type spec).bind fun mine =>
  (sparsePlanLoop 0 mine.1 mine.2).map fun r => ⟨r.1, mine.2, r.2⟩

/-- Resolution of one lookup-spec entry to a concrete key string in
`SparsePlan::make_state`: a child value is formatted as its signed
base-10 decimal string, a literal label must be a mapped name
(asserted by `get_label_name`; a violated assertion is `none`). -/
def resolveKey (g : Nat → Int) (s : DimSpec) : Option String :=
  match s.child_or_label with
  | .child idx => some (toString (g idx))
  | .label (.lname n) => some n
  | .label (.lindex _) => none

/-- The key-building loop of `SparsePlan::make_state` (one `push_back`
per lookup spec, a failed assertion aborts). -/
def makeStateLoop (g : Nat → Int) : List DimSpec → Option (List String)
  | [] => some []
  | s :: ss => (resolveKey g s).bind fun key => (makeStateLoop g ss).map (key :: ·)

/-- `SparsePlan::make_state`: the concrete lookup key strings, one per
pinned mapped dimension, in plan (ascending-name) order. -/
def SparsePlan.make_state (sp : SparsePlan) (g : Nat → Int) : Option (List String) :=
  makeStateLoop g sp.lookup_specs

/-- Modelled from the spec: a tensor value (the generic value
abstraction is not part of the sources here).  `addresses` lists, per
subspace in ordinal order, the string coordinates of the input's mapped
dimensions (ascending dimension order); `cells` is the flat cell array,
subspace `s` occupying the block starting at `s * dense_subspace_size`. -/
structure Value (C : Type) where
  addresses : List (List String)
  cells : List C
deriving Repr

/-- Coordinates of an address at the view's dimension positions. -/
def addrSelect (addr : List String) (view_dims : List Nat) : List String :=
  view_dims.map (fun i => addr.getD i "")

/-- Coordinates of an address at the surviving (non-view) positions:
these fill the output address buffers.  The total number of mapped
dimensions is `view_dims.length + out_mapped_dims`. -/
def addrRemaining (addr : List String) (sp : SparsePlan) : List String :=
  (((List.range (sp.view_dims.length + sp.out_mapped_dims)).filter
      (fun i => ¬ i ∈ sp.view_dims)).map (fun i => addr.getD i ""))

/-- Modelled from the spec: the sparse view lookup enumerates, in
subspace-ordinal order, every input subspace whose coordinates at the
view positions equal the lookup keys. -/
def peekMatches (input_addresses : List (List String)) (sp : SparsePlan)
    (keys : List String) : List (Nat × List String) :=
  input_addresses.enum.filter (fun p => addrSelect p.2 sp.view_dims = keys)

/-- The result value as built subspace-by-subspace: each entry is the
output mapped address plus the dense cell block. -/
structure PeekResult (C : Type) where
  subspaces : List (List String × List C)
deriving Repr

/-- `generic_mixed_peek`: resolve the dense offset; unless it is
`npos`, build the sparse state and copy, for every matching input
subspace, one nested-loop pass of input cells into a fresh output
subspace; finally, if the result has no mapped dimensions and nothing
was filled, emit one default (zero) subspace.  `conv` is the implicit
numeric conversion from input to output cell type. -/
def generic_mixed_peek {ICT OCT : Type} [Zero ICT] [Zero OCT]
    (input_value : Value ICT) (sparse_plan : SparsePlan) (dense_plan : DensePlan)
    (conv : ICT → OCT) (get_child_value : Nat → Int) : Option (PeekResult OCT) :=
  let dense_offset := dense_plan.get_offset get_child_value
  if dense_offset = npos then
    some ⟨if sparse_plan.out_mapped_dims = 0 then
            [([], List.replicate dense_plan.out_dense_size (0 : OCT))]
          else []⟩
  else
    (sparse_plan.make_state get_child_value).map fun keys =>
      let filled := (peekMatches input_value.addresses sparse_plan keys).map
        (fun p =>
          (addrRemaining p.2 sparse_plan,
           (run_nested_loop (dense_offset + p.1 * dense_plan.in_dense_size)
              dense_plan.loop_cnt dense_plan.in_stride).map
             (fun idx => conv (input_value.cells.getD idx 0))))
      ⟨if sparse_plan.out_mapped_dims = 0 ∧ filled.isEmpty then
          filled ++ [([], List.replicate dense_plan.out_dense_size (0 : OCT))]
        else filled⟩

/-- Modelled from the spec: `ValueType::dense_subspace_size`, the
product of the sizes of a type's indexed dimensions. -/
def dense_subspace_size (t : List Dimension) : Nat :=
  listProd ((t.filter (fun d => d.is_indexed)).map Dimension.size)

/-- Number of mapped dimensions of a type. -/
def mapped_dim_count (t : List Dimension) : Nat :=
  (t.filter (fun d => ¬ d.is_indexed)).length

/-- `PeekParam`: both plans plus the child count; its constructor
asserts that the plans' dense sizes agree with the input and result
types' dense subspace sizes. -/
structure PeekParam where
  res_type : List Dimension
  dense_plan : DensePlan
  sparse_plan : SparsePlan
  num_children : Nat

/-- `PeekParam::PeekParam` (assertion failures become `none`). -/
def peekParam (input_type res_type : List Dimension) (spec : Spec) :
    Option PeekParam :=
  (densePlan input_type spec).bind fun dp =>
  (sparsePlan input_type spec).bind fun sp =>
  if dp.in_dense_size = dense_subspace_size input_type ∧
     dp.out_dense_size = dense_subspace_size res_type then
    some ⟨res_type, dp, sp, count_children spec⟩
  else none

/-- `InterpretedFunction::State::peek`: read the stack `k` positions
below the top (the stack is modelled head-at-top). -/
def state_peek {V : Type} (stack : List V) (k : Nat) (dflt : V) : V :=
  stack.getD k dflt

/-- `my_generic_peek_op`: the stack glue.  The input value lies
`num_children` below the top; child `i` is read at stack position
`last_child - i` through the double-valued accessor (`asI64` models
`int64_t(v.as_double())`); the engine runs and `pop_n_push` removes the
`num_children + 1` operands and pushes the one result. -/
def my_generic_peek_op {V ICT OCT : Type} [Zero ICT] [Zero OCT]
    (num_children : Nat) (sparse_plan : SparsePlan) (dense_plan : DensePlan)
    (conv : ICT → OCT) (asValue : V → Value ICT) (asI64 : V → Int)
    (mkRes : Option (PeekResult OCT) → V) (dflt : V) (stack : List V) : List V :=
  let input_value := asValue (state_peek stack num_children dflt)
  let last_child := num_children - 1
  let get_child_value := fun child_idx =>
    asI64 (state_peek stack (last_child - child_idx) dflt)
  let up := generic_mixed_peek input_value sparse_plan dense_plan conv get_child_value
  mkRes up :: stack.drop (num_children + 1)

/-! Reference functions used to state the verified properties. -/

/-- Dot product of a coordinate list with a stride list. -/
def dotSum : List Nat → List Nat → Nat
  | j :: js, s :: ss => j * s + dotSum js ss
  | _, _ => 0

/-- Sum of the children's contributions as the offset loop computes
them: converted child value times stride. -/
def childContrib (g : Nat → Int) : List Child → Nat
  | [] => 0
  | c :: cs => toSizeT (g c.idx) * c.stride + childContrib g cs

/-- Sum of the children's contributions for in-range (non-negative)
values: the integer child value times the child's stride. -/
def childVals (g : Nat → Int) : List Child → Nat
  | [] => 0
  | c :: cs => (g c.idx).toNat * c.stride + childVals g cs

/-- Kind of the dimension a spec entry names: `some true` for an
indexed dimension, `some false` for a mapped one, `none` when the name
is absent from the type. -/
def specKind (dims : List Dimension) (n : String) : Option Bool :=
  (dims.find? (fun d => d.name = n)).map Dimension.is_indexed

/-- Total resolution of a lookup spec to its key string (the junk
value for an indexed label never occurs on well-formed sparse plans). -/
def resolveTotal (g : Nat → Int) (s : DimSpec) : String :=
  match s.child_or_label with
  | .child idx => toString (g idx)
  | .label (.lname n) => n
  | .label (.lindex _) => ""

/-- A spec entry that pins dimension `d` to its literal coordinate:
same name, an in-range indexed label for an indexed dimension, a name
label for a mapped dimension. -/
def pinOk (d : Dimension) (p : String × MyLabel) : Bool :=
  p.1 = d.name &&
    match d.kind, p.2 with
    | .indexed n, .label (.lindex li) => li < n
    | .mapped, .label (.lname _) => true
    | _, _ => false

/-- The literal coordinates an all-label specification pins the
indexed dimensions to, in dimension order. -/
def pinnedDenseCoords (ty : List Dimension) (spec : Spec) : List Nat :=
  ((ty.zip spec).filter (fun q => q.1.is_indexed = true)).map
    (fun q => match q.2.2 with | .label (.lindex li) => li | _ => 0)

/-- The literal names an all-label specification pins the mapped
dimensions to, in dimension order. -/
def pinnedMappedKeys (ty : List Dimension) (spec : Spec) : List String :=
  ((ty.zip spec).filter (fun q => q.1.is_indexed = false)).map
    (fun q => match q.2.2 with | .label (.lname s) => s | _ => "")

/-- Sizes of a type's indexed dimensions, in dimension order. -/
def indexedSizes (ty : List Dimension) : List Nat :=
  (ty.filter (fun d => d.is_indexed = true)).map Dimension.size

/-- The coordinate an indexed-label pin denotes (0 for other pins). -/
def specLIndex (s : DimSpec) : Nat :=
  match s.child_or_label with
  | .label (.lindex li) => li
  | _ => 0

/-! ### Lemmas about the dense offset computation -/

theorem two_pow_64_eq : (2 : Int) ^ 64 = 18446744073709551616 := by norm_num

theorem npos_eq : npos = 18446744073709551615 := by norm_num [npos]

theorem toSizeT_of_nonneg {v : Int} (h0 : 0 ≤ v) (h1 : v < 2 ^ 64) :
    toSizeT v = v.toNat := by
  unfold toSizeT
  rw [Int.emod_eq_of_lt h0 h1]

theorem toSizeT_large_of_neg {v : Int} (hl : -(2 ^ 63) ≤ v) (h : v < 0) :
    2 ^ 63 ≤ toSizeT v := by
  have e64 : (2 : Int) ^ 64 = 18446744073709551616 := by norm_num
  have e63 : (2 : Int) ^ 63 = 9223372036854775808 := by norm_num
  unfold toSizeT
  rw [e64]
  rw [e63] at hl
  have h1 : (v + 18446744073709551616 * 1) % 18446744073709551616 =
      v % 18446744073709551616 := Int.add_mul_emod_self_left v 18446744073709551616 1
  rw [mul_one] at h1
  rw [← h1, Int.emod_eq_of_lt (by omega) (by omega)]
  have e63n : (2 : Nat) ^ 63 = 9223372036854775808 := by norm_num
  rw [e63n]
  omega

theorem get_offset_loop_ok (g : Nat → Int) :
    ∀ (cs : List Child), (∀ c ∈ cs, toSizeT (g c.idx) < c.limit) →
      ∀ off, get_offset_loop g off cs = off + childContrib g cs := by
  intro cs
  induction cs with
  | nil => intro _ off; simp [get_offset_loop, childContrib]
  | cons c cs ih =>
    intro h off
    have hc : toSizeT (g c.idx) < c.limit := h c (List.mem_cons_self c cs)
    simp only [get_offset_loop, childContrib]
    rw [if_pos hc, ih (fun c' hc' => h c' (List.mem_cons_of_mem _ hc'))]
    omega

theorem get_offset_loop_bad (g : Nat → Int) :
    ∀ (cs : List Child), (∃ c ∈ cs, c.limit ≤ toSizeT (g c.idx)) →
      ∀ off, get_offset_loop g off cs = npos := by
  intro cs
  induction cs with
  | nil => rintro ⟨c, hc, _⟩; cases hc
  | cons c cs ih =>
    rintro ⟨c', hc', hbad⟩ off
    simp only [get_offset_loop]
    rcases List.mem_cons.mp hc' with rfl | hmem
    · rw [if_neg (by omega)]
    · by_cases hok : toSizeT (g c.idx) < c.limit
      · rw [if_pos hok]; exact ih ⟨c', hmem, hbad⟩ _
      · rw [if_neg hok]

theorem childContrib_eq_childVals (g : Nat → Int) :
    ∀ (cs : List Child), (∀ c ∈ cs, 0 ≤ g c.idx ∧ g c.idx < 2 ^ 64) →
      childContrib g cs = childVals g cs := by
  intro cs
  induction cs with
  | nil => intro _; rfl
  | cons c cs ih =>
    intro h
    have hc := h c (List.mem_cons_self c cs)
    simp only [childContrib, childVals,
      toSizeT_of_nonneg hc.1 hc.2, ih (fun c' hc' => h c' (List.mem_cons_of_mem _ hc'))]

/-! ### Lemmas about the dense plan classification loop -/

theorem densePlanLoop_out :
    ∀ (dims : List Dimension) szs sts specs lc istr os vb ch,
      densePlanLoop dims szs sts specs = some (lc, istr, os, vb, ch) →
      os = listProd lc := by
  intro dims
  induction dims with
  | nil =>
    intro szs sts specs lc istr os vb ch h
    cases specs with
    | nil =>
      simp only [densePlanLoop, Option.some.injEq] at h
      obtain ⟨rfl, rfl, rfl, rfl, rfl⟩ := h
      simp [listProd]
    | cons s ss => simp [densePlanLoop] at h
  | cons d dims ih =>
    intro szs sts specs lc istr os vb ch h
    cases szs with
    | nil => simp [densePlanLoop] at h
    | cons sz szs =>
      cases sts with
      | nil => simp [densePlanLoop] at h
      | cons st sts =>
        cases specs with
        | nil =>
          simp only [densePlanLoop, Option.map_eq_some'] at h
          obtain ⟨⟨lc', istr', os', vb', ch'⟩, hr, heq⟩ := h
          simp only [Prod.mk.injEq] at heq
          obtain ⟨rfl, rfl, rfl, rfl, rfl⟩ := heq
          rw [listProd, ih _ _ _ _ _ _ _ _ hr, mul_comm]
        | cons s ss =>
          simp only [densePlanLoop] at h
          split at h
          · simp only [Option.map_eq_some'] at h
            obtain ⟨⟨lc', istr', os', vb', ch'⟩, hr, heq⟩ := h
            simp only [Prod.mk.injEq] at heq
            obtain ⟨rfl, rfl, rfl, rfl, rfl⟩ := heq
            rw [listProd, ih _ _ _ _ _ _ _ _ hr, mul_comm]
          · split at h
            · split at h
              · simp only [Option.map_eq_some'] at h
                obtain ⟨⟨lc', istr', os', vb', ch'⟩, hr, heq⟩ := h
                simp only [Prod.mk.injEq] at heq
                obtain ⟨rfl, rfl, rfl, rfl, rfl⟩ := heq
                exact ih _ _ _ _ _ _ _ _ hr
              · split at h
                · simp only [Option.map_eq_some'] at h
                  obtain ⟨⟨lc', istr', os', vb', ch'⟩, hr, heq⟩ := h
                  simp only [Prod.mk.injEq] at heq
                  obtain ⟨rfl, rfl, rfl, rfl, rfl⟩ := heq
                  exact ih _ _ _ _ _ _ _ _ hr
                · exact absurd h (by simp)
              · exact absurd h (by simp)
            · exact absurd h (by simp)

/-- Every loop count recorded by the classification loop is one of the
dimension sizes. -/
theorem densePlanLoop_lc_mem :
    ∀ (dims : List Dimension) szs sts specs lc istr os vb ch,
      densePlanLoop dims szs sts specs = some (lc, istr, os, vb, ch) →
      ∀ x ∈ lc, x ∈ szs := by
  intro dims
  induction dims with
  | nil =>
    intro szs sts specs lc istr os vb ch h
    cases specs with
    | nil =>
      simp only [densePlanLoop, Option.some.injEq] at h
      obtain ⟨rfl, rfl, rfl, rfl, rfl⟩ := h
      simp
    | cons s ss => simp [densePlanLoop] at h
  | cons d dims ih =>
    intro szs sts specs lc istr os vb ch h
    cases szs with
    | nil => simp [densePlanLoop] at h
    | cons sz szs =>
      cases sts with
      | nil => simp [densePlanLoop] at h
      | cons st sts =>
        cases specs with
        | nil =>
          simp only [densePlanLoop, Option.map_eq_some'] at h
          obtain ⟨⟨lc', istr', os', vb', ch'⟩, hr, heq⟩ := h
          simp only [Prod.mk.injEq] at heq
          obtain ⟨rfl, rfl, rfl, rfl, rfl⟩ := heq
          intro x hx
          rcases List.mem_cons.mp hx with rfl | hx'
          · exact List.mem_cons_self _ _
          · exact List.mem_cons_of_mem _ (ih _ _ _ _ _ _ _ _ hr x hx')
        | cons s ss =>
          simp only [densePlanLoop] at h
          split at h
          · simp only [Option.map_eq_some'] at h
            obtain ⟨⟨lc', istr', os', vb', ch'⟩, hr, heq⟩ := h
            simp only [Prod.mk.injEq] at heq
            obtain ⟨rfl, rfl, rfl, rfl, rfl⟩ := heq
            intro x hx
            rcases List.mem_cons.mp hx with rfl | hx'
            · exact List.mem_cons_self _ _
            · exact List.mem_cons_of_mem _ (ih _ _ _ _ _ _ _ _ hr x hx')
          · split at h
            · split at h
              · simp only [Option.map_eq_some'] at h
                obtain ⟨⟨lc', istr', os', vb', ch'⟩, hr, heq⟩ := h
                simp only [Prod.mk.injEq] at heq
                obtain ⟨rfl, rfl, rfl, rfl, rfl⟩ := heq
                exact fun x hx => List.mem_cons_of_mem _ (ih _ _ _ _ _ _ _ _ hr x hx)
              · split at h
                · simp only [Option.map_eq_some'] at h
                  obtain ⟨⟨lc', istr', os', vb', ch'⟩, hr, heq⟩ := h
                  simp only [Prod.mk.injEq] at heq
                  obtain ⟨rfl, rfl, rfl, rfl, rfl⟩ := heq
                  exact fun x hx => List.mem_cons_of_mem _ (ih _ _ _ _ _ _ _ _ hr x hx)
                · exact absurd h (by simp)
              · exact absurd h (by simp)
            · exact absurd h (by simp)

/-- Core safety bound: for a plan built over the row-major strides of
the dimension sizes, the verbatim offset plus any in-range child
contribution plus any in-range free-loop contribution stays strictly
below the total dense size. -/
theorem densePlanLoop_bound :
    ∀ (dims : List Dimension) specs lc istr os vb ch (g : Nat → Int) (js : List Nat),
      densePlanLoop dims (dims.map Dimension.size)
          (stridesOf (dims.map Dimension.size)) specs = some (lc, istr, os, vb, ch) →
      (∀ c ∈ ch, toSizeT (g c.idx) < c.limit) →
      List.Forall₂ (· < ·) js lc →
      vb + childContrib g ch + dotSum js istr < listProd (dims.map Dimension.size) := by
  intro dims
  induction dims with
  | nil =>
    intro specs lc istr os vb ch g js h hok hjs
    cases specs with
    | nil =>
      simp only [densePlanLoop, Option.some.injEq] at h
      obtain ⟨rfl, rfl, rfl, rfl, rfl⟩ := h
      cases hjs
      simp [childContrib, dotSum, listProd]
    | cons s ss => simp [densePlanLoop] at h
  | cons d dims ih =>
    intro specs lc istr os vb ch g js h hok hjs
    simp only [List.map_cons, stridesOf] at h
    have hprod : listProd ((d :: dims).map Dimension.size) =
        d.size * listProd (dims.map Dimension.size) := by
      simp [listProd]
    rw [hprod]
    set P := listProd (dims.map Dimension.size) with hP
    cases specs with
    | nil =>
      simp only [densePlanLoop, Option.map_eq_some'] at h
      obtain ⟨⟨lc', istr', os', vb', ch'⟩, hr, heq⟩ := h
      simp only [Prod.mk.injEq] at heq
      obtain ⟨rfl, rfl, rfl, rfl, rfl⟩ := heq
      cases hjs with
      | cons hj hjs' =>
        rename_i j js'
        have hrec := ih [] lc' istr' os' vb' ch' g js' hr hok hjs'
        have h2 : j + 1 ≤ d.size := hj
        calc vb' + childContrib g ch' + (j * P + dotSum js' istr')
            = (vb' + childContrib g ch' + dotSum js' istr') + j * P := by ring
          _ < P + j * P := by omega
          _ = (j + 1) * P := by ring
          _ ≤ d.size * P := Nat.mul_le_mul_right P h2
    | cons s ss =>
      simp only [densePlanLoop] at h
      split at h
      · simp only [Option.map_eq_some'] at h
        obtain ⟨⟨lc', istr', os', vb', ch'⟩, hr, heq⟩ := h
        simp only [Prod.mk.injEq] at heq
        obtain ⟨rfl, rfl, rfl, rfl, rfl⟩ := heq
        cases hjs with
        | cons hj hjs' =>
          rename_i j js'
          have hrec := ih (s :: ss) lc' istr' os' vb' ch' g js' hr hok hjs'
          have h2 : j + 1 ≤ d.size := hj
          calc vb' + childContrib g ch' + (j * P + dotSum js' istr')
              = (vb' + childContrib g ch' + dotSum js' istr') + j * P := by ring
            _ < P + j * P := by omega
            _ = (j + 1) * P := by ring
            _ ≤ d.size * P := Nat.mul_le_mul_right P h2
      · split at h
        · split at h
          · rename_i idx hidx
            simp only [Option.map_eq_some'] at h
            obtain ⟨⟨lc', istr', os', vb', ch'⟩, hr, heq⟩ := h
            simp only [Prod.mk.injEq] at heq
            obtain ⟨rfl, rfl, rfl, rfl, rfl⟩ := heq
            have hhead : toSizeT (g idx) < d.size :=
              hok ⟨idx, P, d.size⟩ (List.mem_cons_self _ _)
            have hrec := ih ss lc' istr' os' vb' ch' g js hr
              (fun c hc => hok c (List.mem_cons_of_mem _ hc)) hjs
            have h2 : toSizeT (g idx) + 1 ≤ d.size := hhead
            calc vb' + childContrib g (⟨idx, P, d.size⟩ :: ch') + dotSum js istr'
                = (vb' + childContrib g ch' + dotSum js istr') + toSizeT (g idx) * P := by
                  simp only [childContrib]; ring
              _ < P + toSizeT (g idx) * P := by omega
              _ = (toSizeT (g idx) + 1) * P := by ring
              _ ≤ d.size * P := Nat.mul_le_mul_right P h2
          · rename_i li hli
            split at h
            · rename_i hlt
              simp only [Option.map_eq_some'] at h
              obtain ⟨⟨lc', istr', os', vb', ch'⟩, hr, heq⟩ := h
              simp only [Prod.mk.injEq] at heq
              obtain ⟨rfl, rfl, rfl, rfl, rfl⟩ := heq
              have hrec := ih ss lc' istr' os' vb' ch' g js hr hok hjs
              have h2 : li + 1 ≤ d.size := hlt
              calc li * P + vb' + childContrib g ch' + dotSum js istr'
                  = (vb' + childContrib g ch' + dotSum js istr') + li * P := by ring
                _ < P + li * P := by omega
                _ = (li + 1) * P := by ring
                _ ≤ d.size * P := Nat.mul_le_mul_right P h2
            · exact absurd h (by simp)
          · exact absurd h (by simp)
        · exact absurd h (by simp)

/-- Decomposition of the indices generated by the nested loop: each is
the base offset plus a stride-weighted combination of in-range loop
coordinates. -/
theorem run_nested_loop_mem :
    ∀ (lc istr : List Nat) (off idx : Nat),
      idx ∈ run_nested_loop off lc istr →
      ∃ js, List.Forall₂ (· < ·) js lc ∧ idx = off + dotSum js istr := by
  intro lc
  induction lc with
  | nil =>
    intro istr off idx h
    simp only [run_nested_loop, List.mem_singleton] at h
    exact ⟨[], List.Forall₂.nil, by simp [dotSum, h]⟩
  | cons cnt cnts ih =>
    intro istr off idx h
    cases istr with
    | nil => simp [run_nested_loop] at h
    | cons str strs =>
      simp only [run_nested_loop, List.mem_flatMap] at h
      obtain ⟨i, hi, hmem⟩ := h
      have hi' : i < cnt := List.mem_range.mp hi
      obtain ⟨js, hjs, heq⟩ := ih strs (off + i * str) idx hmem
      refine ⟨i :: js, List.Forall₂.cons hi' hjs, ?_⟩
      simp only [dotSum]
      omega

/-- Dimensions collected by the classifier all come from the input. -/
theorem extractedSpecs_dims_sub (ind : Bool) :
    ∀ (dims : List Dimension) (spec : Spec) ds sp,
      extractedSpecs ind dims spec = some (ds, sp) → ∀ d ∈ ds, d ∈ dims := by
  intro dims
  induction dims with
  | nil =>
    intro spec ds sp h
    cases spec with
    | nil =>
      simp only [extractedSpecs, Option.some.injEq] at h
      obtain ⟨rfl, rfl⟩ := Prod.mk.injEq .. ▸ h
      simp
    | cons p ps => simp [extractedSpecs] at h
  | cons a as ih =>
    intro spec ds sp h
    cases spec with
    | nil =>
      simp only [extractedSpecs, Option.map_eq_some'] at h
      obtain ⟨⟨ds', sp'⟩, hr, heq⟩ := h
      simp only [Prod.mk.injEq] at heq
      obtain ⟨rfl, rfl⟩ := heq
      intro d hd
      split at hd
      · rcases List.mem_cons.mp hd with rfl | hd'
        · exact List.mem_cons_self _ _
        · exact List.mem_cons_of_mem _ (ih _ _ _ hr d hd')
      · exact List.mem_cons_of_mem _ (ih _ _ _ hr d hd)
    | cons p ps =>
      simp only [extractedSpecs] at h
      split at h
      · simp only [Option.map_eq_some'] at h
        obtain ⟨⟨ds', sp'⟩, hr, heq⟩ := h
        simp only [Prod.mk.injEq] at heq
        obtain ⟨rfl, rfl⟩ := heq
        intro d hd
        split at hd
        · rcases List.mem_cons.mp hd with rfl | hd'
          · exact List.mem_cons_self _ _
          · exact List.mem_cons_of_mem _ (ih _ _ _ hr d hd')
        · exact List.mem_cons_of_mem _ (ih _ _ _ hr d hd)
      · split at h
        · exact absurd h (by simp)
        · simp only [Option.map_eq_some'] at h
          obtain ⟨⟨ds', sp'⟩, hr, heq⟩ := h
          intro d hd
          split at heq
          · simp only [Prod.mk.injEq] at heq
            obtain ⟨rfl, rfl⟩ := heq
            rcases List.mem_cons.mp hd with rfl | hd'
            · exact List.mem_cons_self _ _
            · exact List.mem_cons_of_mem _ (ih _ _ _ hr d hd')
          · simp only [Prod.mk.injEq] at heq
            obtain ⟨rfl, rfl⟩ := heq
            exact List.mem_cons_of_mem _ (ih _ _ _ hr d hd)

/-- Unfolding of a successful `DensePlan` construction. -/
theorem densePlan_spec (ty : List Dimension) (spec : Spec) (dp : DensePlan)
    (h : densePlan ty spec = some dp) :
    ∃ dims dspecs,
      extractedSpecs true ty spec = some (dims, dspecs) ∧
      dims.all (fun d => d.is_indexed) = true ∧
      densePlanLoop dims (dims.map Dimension.size) (stridesOf (dims.map Dimension.size))
          dspecs =
        some (dp.loop_cnt, dp.in_stride, dp.out_dense_size, dp.verbatim_offset,
          dp.children) ∧
      dp.in_dense_size = listProd (dims.map Dimension.size) := by
  unfold densePlan at h
  cases hex : extractedSpecs true ty spec with
  | none => rw [hex] at h; simp at h
  | some mine =>
    obtain ⟨dims, dspecs⟩ := mine
    rw [hex] at h
    simp only [Option.bind_eq_bind, Option.some_bind] at h
    unfold denseSizes at h
    split at h
    · simp only [Option.some_bind, Option.map_eq_some'] at h
      obtain ⟨⟨lc, istr, os, vb, ch⟩, hr, heq⟩ := h
      refine ⟨dims, dspecs, rfl, by assumption, ?_, ?_⟩
      · rw [← heq]; exact hr
      · rw [← heq]
    · simp at h

/-- Each loop count of a plan over positively sized dimensions is
positive. -/
theorem forall₂_replicate_zero :
    ∀ (lc : List Nat), (∀ x ∈ lc, 0 < x) →
      List.Forall₂ (· < ·) (List.replicate lc.length 0) lc := by
  intro lc
  induction lc with
  | nil => intro _; simp [List.replicate]
  | cons x xs ih =>
    intro h
    simp only [List.length_cons, List.replicate_succ]
    exact List.Forall₂.cons (h x (List.mem_cons_self _ _))
      (ih (fun y hy => h y (List.mem_cons_of_mem _ hy)))

theorem dotSum_replicate_zero : ∀ (n : Nat) (istr : List Nat),
    dotSum (List.replicate n 0) istr = 0 := by
  intro n
  induction n with
  | zero => intro istr; cases istr <;> simp [dotSum]
  | succ n ih =>
    intro istr
    cases istr with
    | nil => simp [List.replicate_succ, dotSum]
    | cons s ss => simp [List.replicate_succ, dotSum, ih]

/-! ### Claim theorems -/

/-- C1: runtime dense offset resolution returns `verbatim_offset` plus
the sum over all children of `child.stride * value` exactly when every
child's (integer) value lies in `[0, child.limit)`; if any child's
value is out of range it returns the sentinel `npos`, which is distinct
from every valid offset (every resolved offset is strictly below the
input dense size, which itself is at most `npos`). -/
theorem c1_dense_offset_resolution (ty : List Dimension) (spec : Spec)
    (dp : DensePlan) (g : Nat → Int)
    (hdp : densePlan ty spec = some dp)
    (hg : ∀ i, -(2 ^ 63) ≤ g i ∧ g i < 2 ^ 63)
    (hlim : ∀ c ∈ dp.children, c.limit ≤ 2 ^ 63)
    (hpos : ∀ d ∈ ty, d.is_indexed = true → 0 < d.size)
    (hin : dp.in_dense_size ≤ npos) :
    ((∀ c ∈ dp.children, 0 ≤ g c.idx ∧ g c.idx < (c.limit : Int)) →
        dp.get_offset g = dp.verbatim_offset + childVals g dp.children ∧
        dp.get_offset g < dp.in_dense_size ∧ dp.get_offset g ≠ npos) ∧
    ((∃ c ∈ dp.children, g c.idx < 0 ∨ (c.limit : Int) ≤ g c.idx) →
        dp.get_offset g = npos) := by
  obtain ⟨dims, dspecs, hex, hall, hloop, hins⟩ := densePlan_spec ty spec dp hdp
  have h64 : ((2 : Int) ^ 63) < 2 ^ 64 := by norm_num
  constructor
  · intro hok
    have hok' : ∀ c ∈ dp.children, toSizeT (g c.idx) < c.limit := by
      intro c hc
      obtain ⟨h0, h1⟩ := hok c hc
      rw [toSizeT_of_nonneg h0 (lt_trans ((hg c.idx).2) h64)]
      omega
    have heq : dp.get_offset g = dp.verbatim_offset + childContrib g dp.children :=
      get_offset_loop_ok g dp.children hok' dp.verbatim_offset
    have hvals : childContrib g dp.children = childVals g dp.children := by
      refine childContrib_eq_childVals g dp.children (fun c hc => ?_)
      exact ⟨(hok c hc).1, lt_trans ((hg c.idx).2) h64⟩
    have hlcpos : ∀ x ∈ dp.loop_cnt, 0 < x := by
      intro x hx
      have hxs := densePlanLoop_lc_mem dims _ _ dspecs _ _ _ _ _ hloop x hx
      obtain ⟨d, hd, rfl⟩ := List.mem_map.mp hxs
      have hdty := extractedSpecs_dims_sub true ty spec dims dspecs hex d hd
      have hind : d.is_indexed = true := by
        have := List.all_eq_true.mp hall d hd
        simpa using this
      exact hpos d hdty hind
    have hbound := densePlanLoop_bound dims dspecs dp.loop_cnt dp.in_stride
      dp.out_dense_size dp.verbatim_offset dp.children g
      (List.replicate dp.loop_cnt.length 0) hloop hok'
      (forall₂_replicate_zero dp.loop_cnt hlcpos)
    rw [dotSum_replicate_zero] at hbound
    rw [← hins] at hbound
    refine ⟨by rw [heq, hvals], by omega, by omega⟩
  · rintro ⟨c, hc, hbad⟩
    have hge : c.limit ≤ toSizeT (g c.idx) := by
      rcases hbad with hneg | hbig
      · have := toSizeT_large_of_neg (hg c.idx).1 hneg
        have := hlim c hc
        omega
      · have h0 : (0 : Int) ≤ g c.idx := le_trans (by positivity) hbig
        rw [toSizeT_of_nonneg h0 (lt_trans ((hg c.idx).2) h64)]
        omega
    exact get_offset_loop_bad g dp.children ⟨c, hc, hge⟩ dp.verbatim_offset

/-- Concrete instance: one indexed dimension of size 3 pinned by child
0 with runtime value 1. -/
theorem c1_dense_offset_resolution_witness :
    densePlan [⟨"x", .indexed 3⟩] [("x", .child 0)] =
        some ⟨3, 1, [], [], 0, [⟨0, 1, 3⟩]⟩ ∧
    (((∀ c ∈ ([⟨0, 1, 3⟩] : List Child), 0 ≤ (1 : Int) ∧ (1 : Int) < (c.limit : Int)) →
        DensePlan.get_offset ⟨3, 1, [], [], 0, [⟨0, 1, 3⟩]⟩ (fun _ => 1) =
            0 + childVals (fun _ => 1) [⟨0, 1, 3⟩] ∧
        DensePlan.get_offset ⟨3, 1, [], [], 0, [⟨0, 1, 3⟩]⟩ (fun _ => 1) < 3 ∧
        DensePlan.get_offset ⟨3, 1, [], [], 0, [⟨0, 1, 3⟩]⟩ (fun _ => 1) ≠ npos) ∧
      ((∃ c ∈ ([⟨0, 1, 3⟩] : List Child), (1 : Int) < 0 ∨ (c.limit : Int) ≤ 1) →
        DensePlan.get_offset ⟨3, 1, [], [], 0, [⟨0, 1, 3⟩]⟩ (fun _ => 1) = npos)) := by
  refine ⟨by rfl, ?_⟩
  exact c1_dense_offset_resolution [⟨"x", .indexed 3⟩] [("x", .child 0)]
    ⟨3, 1, [], [], 0, [⟨0, 1, 3⟩]⟩ (fun _ => 1) (by rfl)
    (fun i => ⟨by norm_num, by norm_num⟩)
    (by intro c hc; fin_cases hc; norm_num)
    (by intro d hd; fin_cases hd; intro _; norm_num [Dimension.size])
    (by decide)

/-- C9: whenever the dense offset resolves (is not `npos`), every
linear cell index generated by the nested loop for input subspace `s`
lies inside that subspace's dense block. -/
theorem c9_generated_indices_in_subspace (ty : List Dimension) (spec : Spec)
    (dp : DensePlan) (g : Nat → Int) (s idx : Nat)
    (hdp : densePlan ty spec = some dp)
    (hoff : dp.get_offset g ≠ npos)
    (hidx : idx ∈ run_nested_loop (dp.get_offset g + s * dp.in_dense_size)
        dp.loop_cnt dp.in_stride) :
    s * dp.in_dense_size ≤ idx ∧ idx < (s + 1) * dp.in_dense_size := by
  obtain ⟨dims, dspecs, hex, hall, hloop, hins⟩ := densePlan_spec ty spec dp hdp
  have hok : ∀ c ∈ dp.children, toSizeT (g c.idx) < c.limit := by
    by_contra hbad
    push_neg at hbad
    obtain ⟨c, hc, hge⟩ := hbad
    exact hoff (get_offset_loop_bad g dp.children ⟨c, hc, hge⟩ dp.verbatim_offset)
  have heq : dp.get_offset g = dp.verbatim_offset + childContrib g dp.children :=
    get_offset_loop_ok g dp.children hok dp.verbatim_offset
  obtain ⟨js, hjs, hdec⟩ := run_nested_loop_mem dp.loop_cnt dp.in_stride _ idx hidx
  have hbound := densePlanLoop_bound dims dspecs dp.loop_cnt dp.in_stride
    dp.out_dense_size dp.verbatim_offset dp.children g js hloop hok hjs
  rw [← hins] at hbound
  have hmul : (s + 1) * dp.in_dense_size = s * dp.in_dense_size + dp.in_dense_size := by
    ring
  rw [hmul]
  omega

/-- Concrete instance: free dimension of size 3, subspace 5, index 16
generated from base offset 15. -/
theorem c9_generated_indices_in_subspace_witness :
    densePlan [⟨"x", .indexed 3⟩] [] = some ⟨3, 3, [3], [1], 0, []⟩ ∧
    5 * 3 ≤ 16 ∧ 16 < (5 + 1) * 3 := by
  refine ⟨by rfl, ?_⟩
  exact c9_generated_indices_in_subspace [⟨"x", .indexed 3⟩] []
    ⟨3, 3, [3], [1], 0, []⟩ (fun _ => 0) 5 16 (by rfl)
    (by rw [npos_eq]; decide)
    (by decide)

theorem stridesOf_getD :
    ∀ (l : List Nat) (i : Nat), i < l.length →
      (stridesOf l).getD i 0 = listProd (l.drop (i + 1)) := by
  intro l
  induction l with
  | nil => intro i h; cases h
  | cons s r ih =>
    intro i h
    cases i with
    | zero => simp [stridesOf]
    | succ i =>
      simp only [stridesOf, List.getD_cons_succ, List.drop_succ_cons]
      exact ih i (by simpa using Nat.lt_of_succ_lt_succ h)

/-- C7: the dense size computation produces row-major strides: the last
stride is 1, the stride at each position is the product of the sizes to
its right, and the accumulated total is the product of all sizes. -/
theorem c7_row_major_strides (dims : List Dimension) (ds : DenseSizes)
    (hds : denseSizes dims = some ds) (hne : dims ≠ []) :
    ds.stride.getD (dims.length - 1) 0 = 1 ∧
    (∀ i, i < dims.length → ds.stride.getD i 0 = listProd (ds.size.drop (i + 1))) ∧
    ds.cur_size = listProd ds.size := by
  unfold denseSizes at hds
  split at hds
  · simp only [Option.some.injEq] at hds
    subst hds
    have hlen : (dims.map Dimension.size).length = dims.length := List.length_map _ _
    have hall : ∀ i, i < dims.length →
        (stridesOf (dims.map Dimension.size)).getD i 0 =
          listProd ((dims.map Dimension.size).drop (i + 1)) := by
      intro i hi
      exact stridesOf_getD (dims.map Dimension.size) i (by omega)
    refine ⟨?_, hall, rfl⟩
    have hlpos : 0 < dims.length := List.length_pos.mpr hne
    have h1 := hall (dims.length - 1) (by omega)
    rw [h1]
    have : dims.length - 1 + 1 = (dims.map Dimension.size).length := by omega
    rw [this, List.drop_length]
    rfl
  · simp at hds

/-- Concrete instance: sizes [2, 3, 4] give strides [12, 4, 1] and
total 24. -/
theorem c7_row_major_strides_witness :
    (⟨[2, 3, 4], [12, 4, 1], 24⟩ : DenseSizes).stride.getD (3 - 1) 0 = 1 ∧
    (∀ i, i < ([⟨"a", .indexed 2⟩, ⟨"b", .indexed 3⟩, ⟨"c", .indexed 4⟩] :
        List Dimension).length →
      (⟨[2, 3, 4], [12, 4, 1], 24⟩ : DenseSizes).stride.getD i 0 =
        listProd ((⟨[2, 3, 4], [12, 4, 1], 24⟩ : DenseSizes).size.drop (i + 1))) ∧
    (⟨[2, 3, 4], [12, 4, 1], 24⟩ : DenseSizes).cur_size =
      listProd (⟨[2, 3, 4], [12, 4, 1], 24⟩ : DenseSizes).size := by
  exact c7_row_major_strides
    [⟨"a", .indexed 2⟩, ⟨"b", .indexed 3⟩, ⟨"c", .indexed 4⟩]
    ⟨[2, 3, 4], [12, 4, 1], 24⟩ (by rfl) (by simp)

/-- C3: the dense plan's output dense size is the product of the free
dimensions' loop counts, and (as asserted by the parameter block
constructor for well-typed triples) equals the result type's dense
subspace size. -/
theorem c3_output_dense_size (input_type res_type : List Dimension) (spec : Spec)
    (p : PeekParam) (hpp : peekParam input_type res_type spec = some p) :
    p.dense_plan.out_dense_size = listProd p.dense_plan.loop_cnt ∧
    p.dense_plan.out_dense_size = dense_subspace_size res_type := by
  unfold peekParam at hpp
  cases hdp : densePlan input_type spec with
  | none => rw [hdp] at hpp; simp at hpp
  | some dp =>
    rw [hdp] at hpp
    cases hsp : sparsePlan input_type spec with
    | none => rw [hsp] at hpp; simp at hpp
    | some sp =>
      rw [hsp] at hpp
      simp only [Option.bind_eq_bind, Option.some_bind] at hpp
      split at hpp
      · rename_i hcond
        simp only [Option.some.injEq] at hpp
        subst hpp
        obtain ⟨dims, dspecs, hex, hall, hloop, hins⟩ :=
          densePlan_spec input_type spec dp hdp
        exact ⟨densePlanLoop_out dims _ _ dspecs _ _ _ _ _ hloop, hcond.2⟩
      · simp at hpp

/-- Concrete instance: one free indexed dimension of size 3. -/
theorem c3_output_dense_size_witness :
    (⟨[⟨"x", .indexed 3⟩], ⟨3, 3, [3], [1], 0, []⟩, ⟨0, [], []⟩, 0⟩ :
        PeekParam).dense_plan.out_dense_size =
      listProd (⟨[⟨"x", .indexed 3⟩], ⟨3, 3, [3], [1], 0, []⟩, ⟨0, [], []⟩, 0⟩ :
        PeekParam).dense_plan.loop_cnt ∧
    (⟨[⟨"x", .indexed 3⟩], ⟨3, 3, [3], [1], 0, []⟩, ⟨0, [], []⟩, 0⟩ :
        PeekParam).dense_plan.out_dense_size =
      dense_subspace_size [⟨"x", .indexed 3⟩] := by
  exact c3_output_dense_size [⟨"x", .indexed 3⟩] [⟨"x", .indexed 3⟩] []
    ⟨[⟨"x", .indexed 3⟩], ⟨3, 3, [3], [1], 0, []⟩, ⟨0, [], []⟩, 0⟩ (by rfl)

/-- C8: the stack glue pops the input value plus `num_children` child
operands and pushes exactly one result; the input sits `num_children`
below the top and child `i` is read through the double-valued accessor
at position `num_children - 1 - i` (last pushed = highest index). -/
theorem c8_stack_discipline {V ICT OCT : Type} [Zero ICT] [Zero OCT]
    (num_children : Nat) (sp : SparsePlan) (dp : DensePlan) (conv : ICT → OCT)
    (asValue : V → Value ICT) (asI64 : V → Int) (mkRes : Option (PeekResult OCT) → V)
    (dflt : V) (stack : List V)
    (hlen : num_children + 1 ≤ stack.length) :
    (my_generic_peek_op num_children sp dp conv asValue asI64 mkRes dflt stack).length
        = stack.length - (num_children + 1) + 1 ∧
    my_generic_peek_op num_children sp dp conv asValue asI64 mkRes dflt stack
        = mkRes (generic_mixed_peek (asValue (stack.getD num_children dflt)) sp dp conv
            (fun child_idx => asI64 (stack.getD (num_children - 1 - child_idx) dflt)))
          :: stack.drop (num_children + 1) := by
  constructor
  · simp only [my_generic_peek_op, List.length_cons, List.length_drop]
  · rfl

/-- Concrete instance: stack of three values, one child operand. -/
theorem c8_stack_discipline_witness :
    (my_generic_peek_op 1 ⟨0, [], []⟩
        ⟨1, 1, [], [], 0, []⟩ (id : Int → Int)
        (fun _ => (⟨[], []⟩ : Value Int)) Int.ofNat
        (fun _ => (7 : Nat)) 0 [5, 6, 9]).length = 3 - (1 + 1) + 1 ∧
    my_generic_peek_op 1 ⟨0, [], []⟩
        ⟨1, 1, [], [], 0, []⟩ (id : Int → Int)
        (fun _ => (⟨[], []⟩ : Value Int)) Int.ofNat
        (fun _ => (7 : Nat)) 0 [5, 6, 9]
      = (fun _ => (7 : Nat)) (generic_mixed_peek (⟨[], []⟩ : Value Int) ⟨0, [], []⟩
          ⟨1, 1, [], [], 0, []⟩ (id : Int → Int)
          (fun child_idx => Int.ofNat ([5, 6, 9].getD (1 - 1 - child_idx) 0)))
        :: [5, 6, 9].drop (1 + 1) := by
  exact c8_stack_discipline 1 ⟨0, [], []⟩ ⟨1, 1, [], [], 0, []⟩ (id : Int → Int)
    (fun _ => (⟨[], []⟩ : Value Int)) Int.ofNat (fun _ => (7 : Nat)) 0 [5, 6, 9]
    (by norm_num)

/-- C2: when nothing is filled from the input (unresolved dense offset
or empty sparse match) a result with no mapped dimensions still gets
exactly one zero-filled subspace, while a result with mapped dimensions
gets zero subspaces. -/
theorem c2_default_subspace (rt : List Dimension) {ICT OCT : Type}
    [Zero ICT] [Zero OCT]
    (input : Value ICT) (sp : SparsePlan) (dp : DensePlan) (conv : ICT → OCT)
    (g : Nat → Int) (keys : List String) (r : PeekResult OCT)
    (hwt : mapped_dim_count rt = sp.out_mapped_dims)
    (hks : sp.make_state g = some keys)
    (hnone : dp.get_offset g = npos ∨ peekMatches input.addresses sp keys = [])
    (hr : generic_mixed_peek input sp dp conv g = some r) :
    (mapped_dim_count rt = 0 →
        r.subspaces = [([], List.replicate dp.out_dense_size (0 : OCT))]) ∧
    (mapped_dim_count rt ≠ 0 → r.subspaces = []) := by
  unfold generic_mixed_peek at hr
  by_cases hoff : dp.get_offset g = npos
  · rw [if_pos hoff] at hr
    simp only [Option.some.injEq] at hr
    subst hr
    constructor
    · intro h0
      rw [if_pos (by omega : sp.out_mapped_dims = 0)]
    · intro hne
      rw [if_neg (by omega : ¬ sp.out_mapped_dims = 0)]
  · rw [if_neg hoff] at hr
    rcases hnone with h | hmatch
    · exact absurd h hoff
    · rw [hks] at hr
      simp only [Option.map_some', Option.some.injEq] at hr
      rw [hmatch] at hr
      simp only [List.map_nil] at hr
      subst hr
      constructor
      · intro h0
        rw [if_pos (by constructor; omega; rfl)]
        rfl
      · intro hne
        rw [if_neg (by intro hc; exact absurd hc.1 (by omega))]

/-- Concrete instance: fully dense input of size 3, child value 5 out
of range, the result is one zero-filled subspace. -/
theorem c2_default_subspace_witness :
    mapped_dim_count ([⟨"x", .indexed 3⟩] : List Dimension) = 0 ∧
    ((mapped_dim_count ([⟨"x", .indexed 3⟩] : List Dimension) = 0 →
        (PeekResult.mk [([], [(0 : Int)])]).subspaces =
          [([], List.replicate 1 (0 : Int))]) ∧
     (mapped_dim_count ([⟨"x", .indexed 3⟩] : List Dimension) ≠ 0 →
        (PeekResult.mk [([], [(0 : Int)])]).subspaces = [])) := by
  refine ⟨by rfl, ?_⟩
  exact c2_default_subspace [⟨"x", .indexed 3⟩]
    (⟨[[]], [7, 8, 9]⟩ : Value Int) ⟨0, [], []⟩
    ⟨3, 1, [], [], 0, [⟨0, 1, 3⟩]⟩ id (fun _ => 5) [] ⟨[([], [(0 : Int)])]⟩
    (by rfl) (by rfl) (Or.inl (by rfl)) (by rfl)

/-! ### The name order -/

theorem strLtAux_irrefl : ∀ l, strLtAux l l = false := by
  intro l
  induction l with
  | nil => rfl
  | cons a as ih => simp [strLtAux, lt_self_iff_false, ih]

theorem strLtAux_antisymm :
    ∀ l1 l2, strLtAux l1 l2 = false → strLtAux l2 l1 = false → l1 = l2 := by
  intro l1
  induction l1 with
  | nil =>
    intro l2 h1 _
    cases l2 with
    | nil => rfl
    | cons b bs => simp [strLtAux] at h1
  | cons a as ih =>
    intro l2 h1 h2
    cases l2 with
    | nil => simp [strLtAux] at h2
    | cons b bs =>
      simp only [strLtAux] at h1 h2
      by_cases hab : a < b
      · rw [if_pos hab] at h1; cases h1
      · rw [if_neg hab] at h1
        by_cases hba : b < a
        · rw [if_pos hba] at h2; cases h2
        · rw [if_neg hba] at h1
          rw [if_neg hba, if_neg hab] at h2
          have hchar : a = b := le_antisymm (not_lt.mp hba) (not_lt.mp hab)
          rw [hchar, ih bs h1 h2]

theorem strLtAux_trans :
    ∀ l1 l2 l3, strLtAux l1 l2 = true → strLtAux l2 l3 = true →
      strLtAux l1 l3 = true := by
  intro l1
  induction l1 with
  | nil =>
    intro l2 l3 h1 h2
    cases l2 with
    | nil => simp [strLtAux] at h1
    | cons b bs =>
      cases l3 with
      | nil => simp [strLtAux] at h2
      | cons c cs => rfl
  | cons a as ih =>
    intro l2 l3 h1 h2
    cases l2 with
    | nil => simp [strLtAux] at h1
    | cons b bs =>
      cases l3 with
      | nil => simp [strLtAux] at h2
      | cons c cs =>
        simp only [strLtAux] at h1 h2 ⊢
        by_cases hab : a < b
        · by_cases hbc : b < c
          · rw [if_pos (lt_trans hab hbc)]
          · by_cases hcb : c < b
            · rw [if_neg hbc, if_pos hcb] at h2; cases h2
            · have hbc' : b = c := le_antisymm (not_lt.mp hcb) (not_lt.mp hbc)
              rw [if_pos (hbc' ▸ hab)]
        · by_cases hba : b < a
          · rw [if_neg hab, if_pos hba] at h1; cases h1
          · have hab' : a = b := le_antisymm (not_lt.mp hba) (not_lt.mp hab)
            rw [if_neg hab, if_neg hba] at h1
            by_cases hbc : b < c
            · rw [if_pos (hab' ▸ hbc)]
            · by_cases hcb : c < b
              · rw [if_neg hbc, if_pos hcb] at h2; cases h2
              · have hbc' : b = c := le_antisymm (not_lt.mp hcb) (not_lt.mp hbc)
                have hac : ¬ a < c := by rw [hab', hbc']; exact lt_irrefl c
                have hca : ¬ c < a := by rw [hab', hbc']; exact lt_irrefl c
                rw [if_neg hbc, if_neg hcb] at h2
                rw [if_neg hac, if_neg hca]
                exact ih bs cs h1 h2

theorem strLt_irrefl (a : String) : strLt a a = false := strLtAux_irrefl a.data

theorem string_data_inj : ∀ {a b : String}, a.data = b.data → a = b := by
  intro a b h
  cases a
  cases b
  simp only at h
  rw [h]

theorem strLt_antisymm {a b : String} (h1 : strLt a b = false)
    (h2 : strLt b a = false) : a = b :=
  string_data_inj (strLtAux_antisymm a.data b.data h1 h2)

theorem strLt_trans {a b c : String} (h1 : strLt a b = true)
    (h2 : strLt b c = true) : strLt a c = true :=
  strLtAux_trans a.data b.data c.data h1 h2

theorem strLt_ne {a b : String} (h : strLt a b = true) : a ≠ b := by
  intro heq
  rw [heq, strLt_irrefl] at h
  cases h

/-! ### Characterization of the classifier merge pass -/

theorem specKind_cons_ne (a : Dimension) (as : List Dimension) (n : String)
    (h : a.name ≠ n) : specKind (a :: as) n = specKind as n := by
  unfold specKind
  rw [List.find?_cons_of_neg]
  simp [h]

theorem specKind_cons_eq {a : Dimension} {as : List Dimension} :
    specKind (a :: as) a.name = some a.is_indexed := by
  unfold specKind
  rw [List.find?_cons_of_pos]
  · rfl
  · simp

/-- On sorted inputs whose spec names all exist among the dimension
names, the merge pass succeeds and returns exactly the requested-kind
dimensions plus the requested-kind spec entries. -/
theorem extractedSpecs_sorted (ind : Bool) :
    ∀ (dims : List Dimension) (spec : Spec),
      (dims.map Dimension.name).Pairwise (fun a b => strLt a b = true) →
      (spec.map Prod.fst).Pairwise (fun a b => strLt a b = true) →
      (∀ p ∈ spec, p.1 ∈ dims.map Dimension.name) →
      extractedSpecs ind dims spec =
        some (dims.filter (fun d => d.is_indexed = ind),
              (spec.filter (fun p => specKind dims p.1 = some ind)).map
                (fun p => (⟨p.1, p.2⟩ : DimSpec))) := by
  intro dims
  induction dims with
  | nil =>
    intro spec _ _ hsub
    cases spec with
    | nil => rfl
    | cons p ps => exact absurd (hsub p (List.mem_cons_self p ps)) (by simp)
  | cons a as ih =>
    intro spec hsd hss hsub
    simp only [List.map_cons] at hsd
    have hsd' := List.pairwise_cons.mp hsd
    have hdimfil : (if a.is_indexed = ind then a :: as.filter (fun d => d.is_indexed = ind)
        else as.filter (fun d => d.is_indexed = ind)) =
        (a :: as).filter (fun d => d.is_indexed = ind) := by
      rw [List.filter_cons]
      by_cases hk : a.is_indexed = ind
      · rw [if_pos hk, if_pos (by simpa using hk)]
      · rw [if_neg hk, if_neg (by simpa using hk)]
    cases spec with
    | nil =>
      show (extractedSpecs ind as []).map
          (fun r => (if a.is_indexed = ind then a :: r.1 else r.1, r.2)) = _
      rw [ih [] hsd'.2 (by simp) (by simp)]
      simp only [Option.map_some', List.filter_nil, List.map_nil]
      rw [hdimfil]
    | cons p ps =>
      obtain ⟨n, v⟩ := p
      simp only [List.map_cons] at hss
      have hss' := List.pairwise_cons.mp hss
      have hn : n ∈ (a :: as).map Dimension.name := hsub (n, v) (List.mem_cons_self _ _)
      show (if strLt a.name n then
            (extractedSpecs ind as ((n, v) :: ps)).map
              (fun r => (if a.is_indexed = ind then a :: r.1 else r.1, r.2))
          else if strLt n a.name then none
          else (extractedSpecs ind as ps).map
            (fun r => if a.is_indexed = ind then (a :: r.1, ⟨a.name, v⟩ :: r.2)
              else (r.1, r.2))) = _
      by_cases h1 : strLt a.name n = true
      · rw [if_pos h1]
        have hne : ∀ q ∈ (n, v) :: ps, q.1 ≠ a.name := by
          intro q hq
          rcases List.mem_cons.mp hq with rfl | hq'
          · exact fun he => strLt_ne h1 he.symm
          · have hnq : strLt n q.1 = true := hss'.1 q.1 (by
              simpa using List.mem_map_of_mem Prod.fst hq')
            exact fun he => strLt_ne (strLt_trans h1 hnq) he.symm
        have hsub' : ∀ q ∈ (n, v) :: ps, q.1 ∈ as.map Dimension.name := by
          intro q hq
          have := hsub q hq
          simp only [List.map_cons, List.mem_cons] at this
          rcases this with he | h
          · exact absurd he (hne q hq)
          · exact h
        rw [ih ((n, v) :: ps) hsd'.2 hss hsub']
        simp only [Option.map_some', Option.some.injEq, Prod.mk.injEq]
        refine ⟨hdimfil, ?_⟩
        have hfil : List.filter (fun q => decide (specKind as q.1 = some ind))
              ((n, v) :: ps) =
            List.filter (fun q => decide (specKind (a :: as) q.1 = some ind))
              ((n, v) :: ps) := by
          refine List.filter_congr (fun q hq => ?_)
          have := specKind_cons_ne a as q.1 (fun he => (hne q hq) he.symm)
          exact decide_eq_decide.mpr (by rw [this])
        rw [hfil]
      · rw [if_neg (by simpa using h1)]
        have h2 : strLt n a.name ≠ true := by
          intro h2
          rcases (by simpa using hn : n = a.name ∨ n ∈ as.map Dimension.name) with
            he | hmem
          · exact strLt_ne h2 he
          · have := hsd'.1 n hmem
            exact strLt_ne (strLt_trans h2 this) rfl
        rw [if_neg (by simpa using h2)]
        have heqn : a.name = n :=
          strLt_antisymm (by simpa using h1) (by simpa using h2)
        have hne : ∀ q ∈ ps, q.1 ≠ a.name := by
          intro q hq
          have hnq : strLt n q.1 = true := hss'.1 q.1 (by
            simpa using List.mem_map_of_mem Prod.fst hq)
          rw [← heqn] at hnq
          exact fun he => strLt_ne hnq he.symm
        have hsub' : ∀ q ∈ ps, q.1 ∈ as.map Dimension.name := by
          intro q hq
          have := hsub q (List.mem_cons_of_mem _ hq)
          simp only [List.map_cons, List.mem_cons] at this
          rcases this with he | h
          · exact absurd he (hne q hq)
          · exact h
        rw [ih ps hsd'.2 hss'.2 hsub']
        simp only [Option.map_some']
        have hfil : List.filter (fun q => decide (specKind as q.1 = some ind)) ps =
            List.filter (fun q => decide (specKind (a :: as) q.1 = some ind)) ps := by
          refine List.filter_congr (fun q hq => ?_)
          have := specKind_cons_ne a as q.1 (fun he => (hne q hq) he.symm)
          exact decide_eq_decide.mpr (by rw [this])
        have hheadk : specKind (a :: as) n = some a.is_indexed := by
          rw [← heqn]; exact specKind_cons_eq
        rw [← hdimfil, List.filter_cons, ← hfil]
        by_cases hk : a.is_indexed = ind
        · simp [hk, hheadk, heqn]
        · simp [hk, hheadk]

/-- A spec entry naming a dimension absent from the input makes the
merge pass abort (for either requested kind). -/
theorem extractedSpecs_missing (ind : Bool) :
    ∀ (dims : List Dimension) (spec : Spec) (q : String × MyLabel),
      (dims.map Dimension.name).Pairwise (fun a b => strLt a b = true) →
      (spec.map Prod.fst).Pairwise (fun a b => strLt a b = true) →
      q ∈ spec → q.1 ∉ dims.map Dimension.name →
      extractedSpecs ind dims spec = none := by
  intro dims
  induction dims with
  | nil =>
    intro spec q _ _ hq _
    cases spec with
    | nil => cases hq
    | cons p ps => rfl
  | cons a as ih =>
    intro spec q hsd hss hq hnotin
    simp only [List.map_cons] at hsd
    have hsd' := List.pairwise_cons.mp hsd
    cases spec with
    | nil => cases hq
    | cons p ps =>
      obtain ⟨n, v⟩ := p
      simp only [List.map_cons] at hss
      have hss' := List.pairwise_cons.mp hss
      show (if strLt a.name n then
            (extractedSpecs ind as ((n, v) :: ps)).map
              (fun r => (if a.is_indexed = ind then a :: r.1 else r.1, r.2))
          else if strLt n a.name then none
          else (extractedSpecs ind as ps).map
            (fun r => if a.is_indexed = ind then (a :: r.1, ⟨a.name, v⟩ :: r.2)
              else (r.1, r.2))) = none
      by_cases h1 : strLt a.name n = true
      · rw [if_pos h1]
        rw [ih ((n, v) :: ps) q hsd'.2 hss hq (by
          intro hmem
          exact hnotin (by simp [hmem]))]
        rfl
      · rw [if_neg (by simpa using h1)]
        by_cases h2 : strLt n a.name = true
        · rw [if_pos h2]
        · rw [if_neg (by simpa using h2)]
          have heqn : a.name = n :=
            strLt_antisymm (by simpa using h1) (by simpa using h2)
          have hqps : q ∈ ps := by
            rcases List.mem_cons.mp hq with rfl | hq'
            · exact absurd (by simp [← heqn]) hnotin
            · exact hq'
          rw [ih ps q hsd'.2 hss'.2 hqps (by
            intro hmem
            exact hnotin (by simp [hmem]))]
          rfl

/-- C5: a specification entry naming a dimension absent from the input
type makes plan construction abort in the classifier's merge pass,
while entries naming dimensions of the other kind than the pass
requests are silently skipped (they simply do not appear in the pass's
output). -/
theorem c5_unknown_dimension_aborts (ty : List Dimension) (spec : Spec)
    (hsd : (ty.map Dimension.name).Pairwise (fun a b => strLt a b = true))
    (hss : (spec.map Prod.fst).Pairwise (fun a b => strLt a b = true)) :
    (∀ q ∈ spec, q.1 ∉ ty.map Dimension.name →
        ∀ ind, extractedSpecs ind ty spec = none) ∧
    ((∀ p ∈ spec, p.1 ∈ ty.map Dimension.name) →
        ∀ ind, extractedSpecs ind ty spec =
          some (ty.filter (fun d => d.is_indexed = ind),
                (spec.filter (fun p => specKind ty p.1 = some ind)).map
                  (fun p => (⟨p.1, p.2⟩ : DimSpec)))) :=
  ⟨fun q hq hnot ind => extractedSpecs_missing ind ty spec q hsd hss hq hnot,
   fun hsub ind => extractedSpecs_sorted ind ty spec hsd hss hsub⟩

/-- Concrete instance: spec entry "q" is absent from a type with
dimensions x (indexed) and y (mapped), so both passes abort; a spec
pinning x and y is accepted, the dense pass keeping only the x entry
and the sparse pass only the y entry. -/
theorem c5_unknown_dimension_aborts_witness :
    (extractedSpecs true [⟨"x", .indexed 2⟩, ⟨"y", .mapped⟩]
        [("q", .label (.lindex 0))] = none) ∧
    (extractedSpecs true [⟨"x", .indexed 2⟩, ⟨"y", .mapped⟩]
        [("x", .child 0), ("y", .label (.lname "a"))] =
      some ([⟨"x", .indexed 2⟩], [⟨"x", .child 0⟩])) ∧
    (extractedSpecs false [⟨"x", .indexed 2⟩, ⟨"y", .mapped⟩]
        [("x", .child 0), ("y", .label (.lname "a"))] =
      some ([⟨"y", .mapped⟩], [⟨"y", .label (.lname "a")⟩])) := by
  have h1 := (c5_unknown_dimension_aborts [⟨"x", .indexed 2⟩, ⟨"y", .mapped⟩]
    [("q", .label (.lindex 0))] (by decide) (by decide)).1
    ("q", .label (.lindex 0)) (by decide) (by decide) true
  have h2 := (c5_unknown_dimension_aborts [⟨"x", .indexed 2⟩, ⟨"y", .mapped⟩]
    [("x", .child 0), ("y", .label (.lname "a"))] (by decide) (by decide)).2
    (by decide)
  exact ⟨h1, by rw [h2 true]; rfl, by rw [h2 false]; rfl⟩

/-- The key-building loop resolves every well-formed lookup spec. -/
theorem makeStateLoop_eq (g : Nat → Int) :
    ∀ (l : List DimSpec),
      (∀ s ∈ l, ∀ li, s.child_or_label ≠ .label (.lindex li)) →
      makeStateLoop g l = some (l.map (resolveTotal g)) := by
  intro l
  induction l with
  | nil => intro _; rfl
  | cons s ss ih =>
    intro h
    have hs := h s (List.mem_cons_self s ss)
    have hrest := ih (fun s' hs' => h s' (List.mem_cons_of_mem _ hs'))
    simp only [makeStateLoop, List.map_cons]
    cases hcl : s.child_or_label with
    | child idx =>
      simp [resolveKey, resolveTotal, hcl, hrest]
    | label tl =>
      cases tl with
      | lname nm => simp [resolveKey, resolveTotal, hcl, hrest]
      | lindex li => exact absurd hcl (hs li)

/-- Unfolding of a successful `SparsePlan` construction. -/
theorem sparsePlan_spec (ty : List Dimension) (spec : Spec) (sp : SparsePlan)
    (h : sparsePlan ty spec = some sp) :
    ∃ dims dspecs,
      extractedSpecs false ty spec = some (dims, dspecs) ∧
      sp.lookup_specs = dspecs ∧
      ∃ r, sparsePlanLoop 0 dims dspecs = some r ∧
        sp.out_mapped_dims = r.1 ∧ sp.view_dims = r.2 := by
  unfold sparsePlan at h
  cases hex : extractedSpecs false ty spec with
  | none => rw [hex] at h; simp at h
  | some mine =>
    obtain ⟨dims, dspecs⟩ := mine
    rw [hex] at h
    simp only [Option.bind_eq_bind, Option.some_bind, Option.map_eq_some'] at h
    obtain ⟨r, hr, heq⟩ := h
    exact ⟨dims, dspecs, rfl, by rw [← heq], r, hr, by rw [← heq], by rw [← heq]⟩

/-- C6: the lookup key list has one string per pinned mapped dimension
in ascending dimension-name order (the mapped-kind spec entries, in
spec-map order, which is name order); a literal pin contributes its
name verbatim and a child pin contributes the child's integer value
formatted in decimal. -/
theorem c6_lookup_keys (ty : List Dimension) (spec : Spec) (sp : SparsePlan)
    (g : Nat → Int)
    (hsd : (ty.map Dimension.name).Pairwise (fun a b => strLt a b = true))
    (hss : (spec.map Prod.fst).Pairwise (fun a b => strLt a b = true))
    (hsub : ∀ p ∈ spec, p.1 ∈ ty.map Dimension.name)
    (hsp : sparsePlan ty spec = some sp)
    (hwf : ∀ s ∈ sp.lookup_specs, ∀ li, s.child_or_label ≠ .label (.lindex li)) :
    sp.lookup_specs =
      (spec.filter (fun p => specKind ty p.1 = some false)).map
        (fun p => (⟨p.1, p.2⟩ : DimSpec)) ∧
    sp.make_state g = some (sp.lookup_specs.map (resolveTotal g)) ∧
    (sp.lookup_specs.map DimSpec.name).Pairwise (fun a b => strLt a b = true) := by
  obtain ⟨dims, dspecs, hex, hls, r, hloop, ho, hv⟩ := sparsePlan_spec ty spec sp hsp
  rw [extractedSpecs_sorted false ty spec hsd hss hsub] at hex
  simp only [Option.some.injEq, Prod.mk.injEq] at hex
  obtain ⟨hdims, hspecs⟩ := hex
  have h1 : sp.lookup_specs =
      (spec.filter (fun p => specKind ty p.1 = some false)).map
        (fun p => (⟨p.1, p.2⟩ : DimSpec)) := by rw [hls, ← hspecs]
  refine ⟨h1, makeStateLoop_eq g sp.lookup_specs hwf, ?_⟩
  have hnames : sp.lookup_specs.map DimSpec.name =
      (spec.filter (fun p => specKind ty p.1 = some false)).map Prod.fst := by
    rw [h1, List.map_map]
    rfl
  rw [hnames]
  have hsubl : List.Sublist
      ((spec.filter (fun p => specKind ty p.1 = some false)).map Prod.fst)
      (spec.map Prod.fst) :=
    (List.filter_sublist spec).map Prod.fst
  exact hss.sublist hsubl

/-- Concrete instance: mapped dimensions m (child-pinned, value -1) and
n (literal "k"); the keys are ["-1", "k"] in name order. -/
theorem c6_lookup_keys_witness :
    (⟨0, [⟨"m", .child 0⟩, ⟨"n", .label (.lname "k")⟩], [0, 1]⟩ :
        SparsePlan).lookup_specs =
      (([("m", .child 0), ("n", .label (.lname "k"))] : Spec).filter
          (fun p => specKind [⟨"m", .mapped⟩, ⟨"n", .mapped⟩] p.1 = some false)).map
        (fun p => (⟨p.1, p.2⟩ : DimSpec)) ∧
    SparsePlan.make_state
        ⟨0, [⟨"m", .child 0⟩, ⟨"n", .label (.lname "k")⟩], [0, 1]⟩ (fun _ => -1) =
      some ((⟨0, [⟨"m", .child 0⟩, ⟨"n", .label (.lname "k")⟩], [0, 1]⟩ :
          SparsePlan).lookup_specs.map (resolveTotal (fun _ => -1))) ∧
    ((⟨0, [⟨"m", .child 0⟩, ⟨"n", .label (.lname "k")⟩], [0, 1]⟩ :
        SparsePlan).lookup_specs.map DimSpec.name).Pairwise
      (fun a b => strLt a b = true) := by
  exact c6_lookup_keys [⟨"m", .mapped⟩, ⟨"n", .mapped⟩]
    [("m", .child 0), ("n", .label (.lname "k"))]
    ⟨0, [⟨"m", .child 0⟩, ⟨"n", .label (.lname "k")⟩], [0, 1]⟩ (fun _ => -1)
    (by decide) (by decide) (by decide) (by rfl)
    (by intro s hs li; fin_cases hs <;> simp)

/-- Keys produced by the key loop, position by position. -/
theorem makeStateLoop_get (g : Nat → Int) :
    ∀ (l : List DimSpec) (keys : List String),
      makeStateLoop g l = some keys →
      ∀ k s, l.get? k = some s → keys.get? k = resolveKey g s := by
  intro l
  induction l with
  | nil => intro keys _ k s hk; simp at hk
  | cons s0 ss ih =>
    intro keys hmk k s hk
    simp only [makeStateLoop, Option.bind_eq_bind] at hmk
    cases hrk : resolveKey g s0 with
    | none => rw [hrk] at hmk; simp at hmk
    | some key =>
      rw [hrk] at hmk
      simp only [Option.some_bind, Option.map_eq_some'] at hmk
      obtain ⟨ks, hks, rfl⟩ := hmk
      cases k with
      | zero =>
        simp only [List.get?_cons_zero, Option.some.injEq] at hk
        subst hk
        simpa using hrk.symm
      | succ k =>
        simp only [List.get?_cons_succ] at hk ⊢
        exact ih ks hks k s hk

/-- C10: a negative child value always yields the `npos` sentinel when
it pins a dense dimension (the wrapped unsigned value exceeds every
limit), while on a mapped dimension it becomes the signed decimal key
string, which participates in the sparse lookup as an ordinary string
and matches any address holding that literal string. -/
theorem c10_negative_child_values (g : Nat → Int) :
    (∀ (ty : List Dimension) (spec : Spec) (dp : DensePlan),
        densePlan ty spec = some dp →
        ∀ c ∈ dp.children, g c.idx < 0 → -(2 ^ 63) ≤ g c.idx → c.limit ≤ 2 ^ 63 →
          dp.get_offset g = npos) ∧
    (∀ (ty : List Dimension) (spec : Spec) (sp : SparsePlan) (keys : List String),
        sparsePlan ty spec = some sp → sp.make_state g = some keys →
        (∀ k nm i, sp.lookup_specs.get? k = some ⟨nm, MyLabel.child i⟩ →
            keys.get? k = some (toString (g i))) ∧
        (∀ (addresses : List (List String)) (p : Nat × List String),
            p ∈ addresses.enum → addrSelect p.2 sp.view_dims = keys →
            p ∈ peekMatches addresses sp keys)) := by
  constructor
  · intro ty spec dp _ c hc hneg hlow hlim
    have hbig : c.limit ≤ toSizeT (g c.idx) := by
      have := toSizeT_large_of_neg hlow hneg
      omega
    exact get_offset_loop_bad g dp.children ⟨c, hc, hbig⟩ dp.verbatim_offset
  · intro ty spec sp keys _ hmk
    constructor
    · intro k nm i hk
      have := makeStateLoop_get g sp.lookup_specs keys hmk k ⟨nm, .child i⟩ hk
      simpa [resolveKey] using this
    · intro addresses p hmem hsel
      unfold peekMatches
      exact List.mem_filter.mpr ⟨hmem, by simp [hsel]⟩

/-- Concrete instance: child value -1 pinning the dense dimension x
(size 3) gives npos; pinning the mapped dimension m gives the key
"-1", which matches the address ["-1"]. -/
theorem c10_negative_child_values_witness :
    DensePlan.get_offset ⟨3, 1, [], [], 0, [⟨1, 1, 3⟩]⟩ (fun _ => -1) = npos ∧
    (["-1"] : List String).get? 0 = some (toString ((-1 : Int))) ∧
    (0, ["-1"]) ∈ peekMatches [["-1"]] ⟨0, [⟨"m", .child 0⟩], [0]⟩ ["-1"] := by
  obtain ⟨h1, h2⟩ := c10_negative_child_values (fun _ => -1)
  have hd := h1 [⟨"m", .mapped⟩, ⟨"x", .indexed 3⟩]
    [("m", .child 0), ("x", .child 1)] ⟨3, 1, [], [], 0, [⟨1, 1, 3⟩]⟩ (by rfl)
    ⟨1, 1, 3⟩ (by simp) (by norm_num) (by norm_num) (by norm_num)
  have hs := h2 [⟨"m", .mapped⟩, ⟨"x", .indexed 3⟩]
    [("m", .child 0), ("x", .child 1)] ⟨0, [⟨"m", .child 0⟩], [0]⟩ ["-1"]
    (by rfl) (by rfl)
  exact ⟨hd, hs.1 0 "m" 0 (by rfl), hs.2 [["-1"]] (0, ["-1"]) (by simp) (by rfl)⟩

/-! ### All-pinned specifications (round trip) -/

theorem stridesOf_length : ∀ (l : List Nat), (stridesOf l).length = l.length := by
  intro l
  induction l with
  | nil => rfl
  | cons s r ih => simp [stridesOf, ih]

/-- When every spec name matches its dimension pointwise, the merge
pass keeps the requested-kind dimensions and pairs them with their
entries. -/
theorem extractedSpecs_names_eq (ind : Bool) :
    ∀ (dims : List Dimension) (spec : Spec),
      List.Forall₂ (fun (d : Dimension) (p : String × MyLabel) => p.1 = d.name)
        dims spec →
      extractedSpecs ind dims spec =
        some (dims.filter (fun d => d.is_indexed = ind),
              ((dims.zip spec).filter (fun q => q.1.is_indexed = ind)).map
                (fun q => (⟨q.1.name, q.2.2⟩ : DimSpec))) := by
  intro dims spec h
  induction h with
  | nil => rfl
  | cons hhead htail ih =>
    rename_i d p dims' spec'
    obtain ⟨n, v⟩ := p
    have hn : n = d.name := hhead
    subst hn
    show (if strLt d.name d.name then
          (extractedSpecs ind dims' ((d.name, v) :: spec')).map
            (fun r => (if d.is_indexed = ind then d :: r.1 else r.1, r.2))
        else if strLt d.name d.name then none
        else (extractedSpecs ind dims' spec').map
          (fun r => if d.is_indexed = ind then (d :: r.1, ⟨d.name, v⟩ :: r.2)
            else (r.1, r.2))) = _
    rw [if_neg (by simp [strLt_irrefl]), if_neg (by simp [strLt_irrefl])]
    rw [ih]
    simp only [Option.map_some', List.zip_cons_cons, List.filter_cons]
    by_cases hk : d.is_indexed = ind
    · rw [if_pos hk, if_pos (by simpa using hk), if_pos (by simpa using hk)]
      rfl
    · rw [if_neg hk, if_neg (by simpa using hk), if_neg (by simpa using hk)]

/-- The dense classification of an all-pinned (by in-range indexed
labels) dimension list: no free loops, no children, the verbatim
offset is the stride-weighted sum of the pinned coordinates. -/
theorem densePlanLoop_all_pinned :
    ∀ (dims : List Dimension) (specs : List DimSpec) (sts : List Nat),
      List.Forall₂ (fun (d : Dimension) (s : DimSpec) =>
        s.name = d.name ∧
          ∃ li, s.child_or_label = .label (.lindex li) ∧ li < d.size) dims specs →
      sts.length = dims.length →
      densePlanLoop dims (dims.map Dimension.size) sts specs =
        some ([], [], 1, dotSum (specs.map specLIndex) sts, []) := by
  intro dims specs sts h
  induction h generalizing sts with
  | nil =>
    intro hlen
    rw [List.length_eq_zero.mp hlen]
    rfl
  | cons hhead htail ih =>
    rename_i d s dims' specs'
    intro hlen
    cases sts with
    | nil => simp at hlen
    | cons st sts' =>
      obtain ⟨hname, li, hcl, hlt⟩ := hhead
      simp only [List.map_cons, densePlanLoop]
      rw [if_neg (by rw [hname]; simp [strLt_irrefl]), if_pos hname.symm]
      simp only [hcl]
      rw [if_pos hlt, ih sts' (by simpa using hlen)]
      simp only [Option.map_some', Option.some.injEq]
      have hsl : specLIndex s = li := by simp [specLIndex, hcl]
      simp [dotSum, hsl]

/-- The sparse classification of an all-pinned mapped dimension list:
no surviving output dimensions, the view covers every position. -/
theorem sparsePlanLoop_all_pinned :
    ∀ (dims : List Dimension) (specs : List DimSpec),
      List.Forall₂ (fun (d : Dimension) (s : DimSpec) => s.name = d.name)
        dims specs →
      ∀ i, sparsePlanLoop i dims specs = some (0, List.range' i dims.length) := by
  intro dims specs h
  induction h with
  | nil => intro i; rfl
  | cons hhead htail ih =>
    rename_i d s dims' specs'
    intro i
    simp only [sparsePlanLoop]
    rw [if_neg (by rw [hhead]; simp [strLt_irrefl]), if_pos hhead.symm]
    rw [ih (i + 1)]
    rfl

/-- Reading back a full-length address through the identity view. -/
theorem map_getD_range :
    ∀ (l : List String), (List.range l.length).map (fun i => l.getD i "") = l := by
  intro l
  induction l with
  | nil => rfl
  | cons a t ih =>
    rw [List.length_cons, List.range_succ_eq_map]
    simp only [List.map_cons, List.getD_cons_zero, List.map_map]
    exact congrArg (a :: ·) ih

/-- With a full view and no surviving dimensions, the output address
is empty. -/
theorem addrRemaining_all_pinned (addr : List String) (sp : SparsePlan) (m : Nat)
    (hv : sp.view_dims = List.range m) (ho : sp.out_mapped_dims = 0) :
    addrRemaining addr sp = [] := by
  unfold addrRemaining
  rw [hv, ho, List.length_range]
  rw [show m + 0 = m by omega]
  rw [List.filter_eq_nil.mpr (fun i hi => by simp [hi])]
  rfl

theorem dotSum_lt_listProd :
    ∀ (js szs : List Nat), List.Forall₂ (· < ·) js szs →
      dotSum js (stridesOf szs) < listProd szs := by
  intro js szs h
  induction h with
  | nil => simp [dotSum, listProd]
  | cons hhead htail ih =>
    rename_i j s js' szs'
    simp only [stridesOf, dotSum, listProd]
    have h2 : j + 1 ≤ s := hhead
    calc j * listProd szs' + dotSum js' (stridesOf szs')
        < j * listProd szs' + listProd szs' := by omega
      _ = (j + 1) * listProd szs' := by ring
      _ ≤ s * listProd szs' := Nat.mul_le_mul_right _ h2

/-- From an all-pinned specification, the dense slice pairs each
indexed dimension with an in-range indexed label. -/
theorem forall₂_filtered_dense :
    ∀ (ty : List Dimension) (spec : Spec),
      List.Forall₂ (fun d p => pinOk d p = true) ty spec →
      List.Forall₂ (fun (d : Dimension) (s : DimSpec) =>
          s.name = d.name ∧
            ∃ li, s.child_or_label = .label (.lindex li) ∧ li < d.size)
        (ty.filter (fun d => d.is_indexed = true))
        (((ty.zip spec).filter (fun q => q.1.is_indexed = true)).map
          (fun q => (⟨q.1.name, q.2.2⟩ : DimSpec))) := by
  intro ty spec h
  induction h with
  | nil => simp
  | cons hhead htail ih =>
    rename_i d p ty' spec'
    simp only [pinOk, Bool.and_eq_true, decide_eq_true_eq] at hhead
    obtain ⟨hn, hrest⟩ := hhead
    simp only [List.zip_cons_cons, List.filter_cons]
    cases hkind : d.kind with
    | indexed sz =>
      have hind : d.is_indexed = true := by simp [Dimension.is_indexed, hkind]
      rw [if_pos (by simpa using hind), if_pos (by simpa using hind)]
      simp only [List.map_cons]
      refine List.Forall₂.cons ⟨rfl, ?_⟩ ih
      rw [hkind] at hrest
      cases hp : p.2 with
      | child idx => rw [hp] at hrest; cases hrest
      | label tl =>
        cases tl with
        | lname nm => rw [hp] at hrest; cases hrest
        | lindex li =>
          rw [hp] at hrest
          exact ⟨li, rfl, by simpa [Dimension.size, hkind] using hrest⟩
    | mapped =>
      have hind : d.is_indexed = false := by simp [Dimension.is_indexed, hkind]
      rw [if_neg (by simp [hind]), if_neg (by simp [hind])]
      exact ih

/-- From an all-pinned specification, the mapped slice pairs each
mapped dimension with an entry of the same name. -/
theorem forall₂_filtered_mapped :
    ∀ (ty : List Dimension) (spec : Spec),
      List.Forall₂ (fun d p => pinOk d p = true) ty spec →
      List.Forall₂ (fun (d : Dimension) (s : DimSpec) => s.name = d.name)
        (ty.filter (fun d => d.is_indexed = false))
        (((ty.zip spec).filter (fun q => q.1.is_indexed = false)).map
          (fun q => (⟨q.1.name, q.2.2⟩ : DimSpec))) := by
  intro ty spec h
  induction h with
  | nil => simp
  | cons hhead htail ih =>
    rename_i d p ty' spec'
    simp only [List.zip_cons_cons, List.filter_cons]
    by_cases hind : d.is_indexed = false
    · rw [if_pos (by simpa using hind), if_pos (by simpa using hind)]
      exact List.Forall₂.cons rfl ih
    · rw [if_neg (by simpa using hind), if_neg (by simpa using hind)]
      exact ih

/-- Key resolution for the all-pinned mapped slice. -/
theorem makeStateLoop_all_pinned (g : Nat → Int) :
    ∀ (ty : List Dimension) (spec : Spec),
      List.Forall₂ (fun d p => pinOk d p = true) ty spec →
      makeStateLoop g
          (((ty.zip spec).filter (fun q => q.1.is_indexed = false)).map
            (fun q => (⟨q.1.name, q.2.2⟩ : DimSpec))) =
        some (pinnedMappedKeys ty spec) := by
  intro ty spec h
  induction h with
  | nil => rfl
  | cons hhead htail ih =>
    rename_i d p ty' spec'
    simp only [pinOk, Bool.and_eq_true, decide_eq_true_eq] at hhead
    obtain ⟨hn, hrest⟩ := hhead
    unfold pinnedMappedKeys
    simp only [List.zip_cons_cons, List.filter_cons]
    cases hkind : d.kind with
    | indexed sz =>
      have hind : ¬ (d.is_indexed = false) := by simp [Dimension.is_indexed, hkind]
      rw [if_neg (by simpa using hind)]
      exact ih
    | mapped =>
      have hind : d.is_indexed = false := by simp [Dimension.is_indexed, hkind]
      rw [if_pos (by simpa using hind)]
      rw [hkind] at hrest
      cases hp : p.2 with
      | child idx => rw [hp] at hrest; cases hrest
      | label tl =>
        cases tl with
        | lindex li => rw [hp] at hrest; cases hrest
        | lname nm =>
          simp only [List.map_cons, makeStateLoop]
          rw [show resolveKey g ⟨d.name, p.2⟩ = some nm from by
            simp [resolveKey, hp]]
          rw [show makeStateLoop g (((ty'.zip spec').filter
              (fun q => q.1.is_indexed = false)).map
                (fun q => (⟨q.1.name, q.2.2⟩ : DimSpec))) =
            some (pinnedMappedKeys ty' spec') from ih]
          simp [pinnedMappedKeys, hp]

theorem forall₂_coords_lt :
    ∀ (fdims : List Dimension) (fspecs : List DimSpec),
      List.Forall₂ (fun (d : Dimension) (s : DimSpec) =>
          s.name = d.name ∧
            ∃ li, s.child_or_label = .label (.lindex li) ∧ li < d.size)
        fdims fspecs →
      List.Forall₂ (· < ·) (fspecs.map specLIndex) (fdims.map Dimension.size) := by
  intro fdims fspecs h
  induction h with
  | nil => simp
  | cons hhead htail ih =>
    obtain ⟨_, li, hcl, hlt⟩ := hhead
    simp only [List.map_cons]
    exact List.Forall₂.cons (by simpa [specLIndex, hcl] using hlt) ih

theorem enumFrom_snd_mem {α : Type} :
    ∀ (l : List α) (n : Nat) (p : Nat × α), p ∈ l.enumFrom n → p.2 ∈ l := by
  intro l
  induction l with
  | nil => intro n p h; cases h
  | cons a t ih =>
    intro n p h
    rcases List.mem_cons.mp h with rfl | h'
    · exact List.mem_cons_self _ _
    · exact List.mem_cons_of_mem _ (ih (n + 1) p h')

theorem enum_snd_mem {α : Type} (l : List α) (p : Nat × α) (h : p ∈ l.enum) :
    p.2 ∈ l := enumFrom_snd_mem l 0 p h

/-- C4: a specification that pins every dimension of the input to a
literal coordinate (no children, no free dimensions) peeks out a
scalar: one subspace with an empty address whose single cell is the
input cell of the uniquely matching subspace at the pinned dense
coordinates. -/
theorem c4_round_trip {ICT OCT : Type} [Zero ICT] [Zero OCT]
    (ty : List Dimension) (spec : Spec) (input : Value ICT)
    (conv : ICT → OCT) (g : Nat → Int) (s : Nat) (dp : DensePlan) (sp : SparsePlan)
    (hpin : List.Forall₂ (fun d p => pinOk d p = true) ty spec)
    (hdp : densePlan ty spec = some dp)
    (hsp : sparsePlan ty spec = some sp)
    (hsz : listProd (indexedSizes ty) ≤ npos)
    (hlen : ∀ a ∈ input.addresses,
        a.length = (ty.filter (fun d => d.is_indexed = false)).length)
    (hmatch : input.addresses.enum.filter
        (fun p => p.2 = pinnedMappedKeys ty spec) =
      [(s, pinnedMappedKeys ty spec)]) :
    generic_mixed_peek input sp dp conv g =
      some ⟨[([], [conv (input.cells.getD
        (s * listProd (indexedSizes ty) +
          dotSum (pinnedDenseCoords ty spec) (stridesOf (indexedSizes ty))) 0)])]⟩ := by
  have hnames : List.Forall₂
      (fun (d : Dimension) (p : String × MyLabel) => p.1 = d.name) ty spec := by
    refine hpin.imp (fun d p h => ?_)
    simp only [pinOk, Bool.and_eq_true, decide_eq_true_eq] at h
    exact h.1
  -- dense plan structure
  have hexT := extractedSpecs_names_eq true ty spec hnames
  have hfd := forall₂_filtered_dense ty spec hpin
  have hall : (ty.filter (fun d => d.is_indexed = true)).all
      (fun d => d.is_indexed) = true := by
    rw [List.all_eq_true]
    intro d hd
    simpa using (List.mem_filter.mp hd).2
  have hds : denseSizes (ty.filter (fun d => d.is_indexed = true)) =
      some ⟨indexedSizes ty, stridesOf (indexedSizes ty),
        listProd (indexedSizes ty)⟩ := by
    unfold denseSizes
    rw [if_pos hall]
    rfl
  have hloop := densePlanLoop_all_pinned (ty.filter (fun d => d.is_indexed = true))
    (((ty.zip spec).filter (fun q => q.1.is_indexed = true)).map
      (fun q => (⟨q.1.name, q.2.2⟩ : DimSpec)))
    (stridesOf (indexedSizes ty)) hfd
    (by rw [stridesOf_length]; unfold indexedSizes; rw [List.length_map])
  have hcoords : (((ty.zip spec).filter (fun q => q.1.is_indexed = true)).map
      (fun q => (⟨q.1.name, q.2.2⟩ : DimSpec))).map specLIndex =
      pinnedDenseCoords ty spec := by
    rw [List.map_map]
    rfl
  unfold densePlan at hdp
  rw [hexT] at hdp
  simp only [Option.bind_eq_bind, Option.some_bind] at hdp
  rw [hds] at hdp
  simp only [Option.some_bind] at hdp
  rw [show (ty.filter (fun d => d.is_indexed = true)).map Dimension.size =
      indexedSizes ty from rfl] at hloop
  rw [hloop] at hdp
  simp only [Option.map_some', Option.some.injEq] at hdp
  have hdpe : dp = ⟨listProd (indexedSizes ty), 1, [], [],
      dotSum (pinnedDenseCoords ty spec) (stridesOf (indexedSizes ty)), []⟩ := by
    rw [← hdp, hcoords]
  -- sparse plan structure
  have hexF := extractedSpecs_names_eq false ty spec hnames
  have hfm := forall₂_filtered_mapped ty spec hpin
  have hsloop := sparsePlanLoop_all_pinned
    (ty.filter (fun d => d.is_indexed = false))
    (((ty.zip spec).filter (fun q => q.1.is_indexed = false)).map
      (fun q => (⟨q.1.name, q.2.2⟩ : DimSpec))) hfm 0
  unfold sparsePlan at hsp
  rw [hexF] at hsp
  simp only [Option.bind_eq_bind, Option.some_bind] at hsp
  rw [hsloop] at hsp
  simp only [Option.map_some', Option.some.injEq] at hsp
  have hspe : sp = ⟨0, ((ty.zip spec).filter
      (fun q => q.1.is_indexed = false)).map
        (fun q => (⟨q.1.name, q.2.2⟩ : DimSpec)),
      List.range' 0 (ty.filter (fun d => d.is_indexed = false)).length⟩ := hsp.symm
  -- keys
  have hmk : sp.make_state g = some (pinnedMappedKeys ty spec) := by
    rw [hspe]
    exact makeStateLoop_all_pinned g ty spec hpin
  -- the resolved offset
  have hvb : dp.get_offset g =
      dotSum (pinnedDenseCoords ty spec) (stridesOf (indexedSizes ty)) := by
    rw [hdpe]
    rfl
  have hvblt : dotSum (pinnedDenseCoords ty spec) (stridesOf (indexedSizes ty)) <
      listProd (indexedSizes ty) := by
    rw [← hcoords]
    rw [show indexedSizes ty =
        (ty.filter (fun d => d.is_indexed = true)).map Dimension.size from rfl]
    exact dotSum_lt_listProd _ _ (forall₂_coords_lt _ _ hfd)
  have hne : ¬ dp.get_offset g = npos := by
    rw [hvb]
    omega
  -- the view is the full mapped-address range
  have hview : sp.view_dims =
      List.range (ty.filter (fun d => d.is_indexed = false)).length := by
    rw [hspe, ← List.range_eq_range']
  have hout : sp.out_mapped_dims = 0 := by rw [hspe]
  -- matching subspaces
  have hpm : peekMatches input.addresses sp (pinnedMappedKeys ty spec) =
      [(s, pinnedMappedKeys ty spec)] := by
    unfold peekMatches
    rw [List.filter_congr (fun p hp => ?_)]
    · exact hmatch
    · have hmem : p.2 ∈ input.addresses := enum_snd_mem input.addresses p hp
      have hplen := hlen p.2 hmem
      refine decide_eq_decide.mpr ?_
      rw [hview, ← hplen]
      unfold addrSelect
      rw [map_getD_range]
  -- assemble
  unfold generic_mixed_peek
  rw [if_neg hne, hmk]
  simp only [Option.map_some', Option.some.injEq]
  rw [hpm]
  simp only [List.map_cons, List.map_nil]
  rw [addrRemaining_all_pinned (pinnedMappedKeys ty spec) sp
    (ty.filter (fun d => d.is_indexed = false)).length hview hout]
  rw [hdpe]
  simp only [List.isEmpty_cons, Bool.false_eq_true, and_false, if_false]
  rw [show (⟨listProd (indexedSizes ty), 1, [], [],
      dotSum (pinnedDenseCoords ty spec) (stridesOf (indexedSizes ty)), []⟩ :
        DensePlan).get_offset g =
      dotSum (pinnedDenseCoords ty spec) (stridesOf (indexedSizes ty)) from rfl]
  rw [show run_nested_loop
      (dotSum (pinnedDenseCoords ty spec) (stridesOf (indexedSizes ty)) +
        s * listProd (indexedSizes ty)) [] [] =
      [dotSum (pinnedDenseCoords ty spec) (stridesOf (indexedSizes ty)) +
        s * listProd (indexedSizes ty)] from rfl]
  simp only [List.map_cons, List.map_nil, PeekResult.mk.injEq]
  rw [Nat.add_comm (dotSum (pinnedDenseCoords ty spec)
    (stridesOf (indexedSizes ty))) (s * listProd (indexedSizes ty))]

/-- Concrete instance: input x (indexed, size 3) and y (mapped) with
subspaces "a" = [1,2,3] and "b" = [4,5,6]; pinning x to 1 and y to "b"
yields the scalar 5. -/
theorem c4_round_trip_witness :
    generic_mixed_peek (⟨[["a"], ["b"]], [1, 2, 3, 4, 5, 6]⟩ : Value Int)
        ⟨0, [⟨"y", .label (.lname "b")⟩], [0]⟩ ⟨3, 1, [], [], 1, []⟩
        (id : Int → Int) (fun _ => 0) =
      some ⟨[([], [(5 : Int)])]⟩ := by
  exact c4_round_trip [⟨"x", .indexed 3⟩, ⟨"y", .mapped⟩]
    [("x", .label (.lindex 1)), ("y", .label (.lname "b"))]
    (⟨[["a"], ["b"]], [1, 2, 3, 4, 5, 6]⟩ : Value Int) (id : Int → Int)
    (fun _ => 0) 1 ⟨3, 1, [], [], 1, []⟩ ⟨0, [⟨"y", .label (.lname "b")⟩], [0]⟩
    (List.Forall₂.cons (by rfl) (List.Forall₂.cons (by rfl) List.Forall₂.nil))
    (by rfl) (by rfl) (by decide) (by decide) (by rfl)

end GenericPeek
